import Mathlib

/-!
# Lineage tree exporters of `frontend/App.js`

A shallow embedding of the three pure functions that consume a lineage tree in
`src/frontend/App.js`

* `renderLineageAsText` (lines 192-227), the indented text rendering,
* `convertLineageToCSV` (lines 229-251), the tabular export,
* `extractPaths` (lines 253-265), the root-to-leaf path extraction,

followed by the properties of the specification that are stated about them.

## Data model

A lineage tree is a JavaScript object; every function walks it through
`Object.entries(tree)`, so an object is represented by its list of entries
`(key, value)` in enumeration order.  A value has an optional string field
`type` and an optional array field `sources` whose elements are objects of the
same shape.  A field that is absent (`undefined`) is `none`.

JavaScript strings are represented by `String`; the programs below only
concatenate them, compare them with literals and split them at `.`.
-/

namespace Lineage

/-! ## Data model -/

mutual
/-- The value of one entry, `{ type?: string, sources?: object[] }`. -/
inductive LineageNode where
  | mk (type : Option String) (sources : Option (List Tree))
/-- An object `{ key: value, ... }`, given by `Object.entries` in order. -/
inductive Tree where
  | mk (entries : List (String × LineageNode))
end

/-- The element `{ name: key, type: value.type }` that `extractPaths` puts on a path. -/
structure PathNode where
  name : String
  type : Option String
deriving DecidableEq, Repr

/-- The field `value.type`. -/
def LineageNode.type : LineageNode → Option String
  | .mk ty _ => ty

/-- The field `value.sources`. -/
def LineageNode.sources : LineageNode → Option (List Tree)
  | .mk _ srcs => srcs

/-- The entries of an object, `Object.entries(tree)`. -/
def Tree.entries : Tree → List (String × LineageNode)
  | .mk es => es

/-- The object with one entry, `{ [key]: value }`. -/
def Tree.single (key : String) (value : LineageNode) : Tree :=
  .mk [(key, value)]

/-! ## JavaScript helpers -/

/-- The expression `value.type || 'UNKNOWN'`: an absent or empty string is falsy. -/
def typeOrUnknown : Option String → String
  | none => "UNKNOWN"
  | some s => if s = "" then "UNKNOWN" else s

/-- The expression `value.sources || []`: every array, also the empty one, is truthy. -/
def sourcesOrEmpty : Option (List Tree) → List Tree
  | none => []
  | some l => l

/-- The loop `for (let i = start; ...; i++) s = body(i, s)` run for `fuel` iterations. -/
def forLoop {σ : Type} (body : Nat → σ → σ) : Nat → Nat → σ → σ
  | 0, _, s => s
  | fuel + 1, i, s => forLoop body fuel (i + 1) (body i s)

/-- The loop `for (let i = start; i < stop; i++) s = body(i, s)`; it runs `stop - start` times. -/
def forRange {σ : Type} (start stop : Nat) (body : Nat → σ → σ) (s : σ) : σ :=
  forLoop body (stop - start) start s

/-- The pieces of `s.split(sep)` for a one-character separator, on the characters of `s`. -/
def splitChars (sep : Char) : List Char → List (List Char)
  | [] => [[]]
  | c :: cs =>
    if c = sep then [] :: splitChars sep cs
    else
      match splitChars sep cs with
      | [] => [[c]]
      | seg :: segs => (c :: seg) :: segs

/-- The expression `key.split('.').pop()`. -/
def lastSegment (key : String) : String :=
  String.mk ((splitChars '.' key.data).getLastD [])

/-! ## `renderLineageAsText` -/

/-- The template `\nANALYZING: ${key}\n${'='.repeat(80)}\n\n` of line 199. -/
def analyzingHeader (key : String) : String :=
  "\nANALYZING: " ++ key ++ "\n" ++ String.mk (List.replicate 80 '=') ++ "\n\n"

/-- The constant `connector` of line 213. -/
def connector (isLast : Bool) : String :=
  if isLast then "└── " else "├── "

/-- The constant `extension` of line 214. -/
def extension (isLast : Bool) : String :=
  if isLast then "    " else "│   "

/-- The constant `icon` of line 215. -/
def icon (type : String) : String :=
  if type = "VIEW" then "[VIEW]" else if type = "TABLE" then "[TABLE]" else "[?]"

mutual
/-- The function `renderLineageAsText(tree, indent, prefix, isLast)`; `pfx` is `prefix`. -/
def renderLineageAsText : Tree → Nat → String → Bool → String
  | .mk entries, indent, pfx, isLast => renderEntries entries indent pfx isLast ""
/-- The loop `for (const [key, value] of Object.entries(tree))` of line 194, from the
entries still to visit and the value of `text` so far; the result is the returned string. -/
def renderEntries : List (String × LineageNode) → Nat → String → Bool → String → String
  | [], _, _, _, text => text
  | (key, .mk ty srcs) :: rest, indent, pfx, isLast, text =>
    let type := typeOrUnknown ty
    let sources := sourcesOrEmpty srcs
    if indent = 0 then
      let text := text ++ analyzingHeader key
      if type = "TABLE" then
        text ++ "This is a BASE TABLE - No dependencies\n"
      else if type = "VIEW" ∧ sources.length = 0 then
        text ++ "No dependencies found\n"
      else
        let text := text ++ "DEPENDENCIES:\n\n"
        let text := renderForEach srcs 1 "" text
        renderEntries rest indent pfx isLast text
    else
      let text := text ++ (pfx ++ connector isLast ++ icon type ++ " " ++ lastSegment key ++ "\n")
      if type ≠ "LOOP" ∧ sources.length > 0 then
        let text := renderForEach srcs (indent + 1) (pfx ++ extension isLast) text
        renderEntries rest indent pfx isLast text
      else
        renderEntries rest indent pfx isLast text
/-- The call `sources.forEach((child, i) => ...)` on `sources = value.sources || []`. -/
def renderForEach : Option (List Tree) → Nat → String → String → String
  | none, _, _, text => text
  | some l, indent, pfx, text => renderSources l 0 l.length indent pfx text
/-- The iterations of `sources.forEach` from index `i` on; `len` is `sources.length` and each
iteration does `text += renderLineageAsText(child, indent, prefix, i === sources.length - 1)`. -/
def renderSources : List Tree → Nat → Nat → Nat → String → String → String
  | [], _, _, _, _, text => text
  | child :: more, i, len, indent, pfx, text =>
    renderSources more (i + 1) len indent pfx
      (text ++ renderLineageAsText child indent pfx (decide (i = len - 1)))
end

/-! ## `extractPaths` -/

mutual
/-- The function `extractPaths(tree, currentPath, allPaths)`; the array `allPaths` that the
source mutates is passed in and returned. -/
def extractPaths : Tree → List PathNode → List (List PathNode) → List (List PathNode)
  | .mk entries, currentPath, allPaths => extractEntries entries currentPath allPaths
/-- The loop `for (const [key, value] of Object.entries(tree))` of line 254. -/
def extractEntries :
    List (String × LineageNode) → List PathNode → List (List PathNode) → List (List PathNode)
  | [], _, allPaths => allPaths
  | (key, .mk ty srcs) :: rest, currentPath, allPaths =>
    let node : PathNode := { name := key, type := ty }
    let newPath := currentPath ++ [node]
    let sources := sourcesOrEmpty srcs
    if sources.length = 0 ∨ ty = some "TABLE" ∨ ty = some "LOOP" then
      extractEntries rest currentPath (allPaths ++ [newPath])
    else
      extractEntries rest currentPath (extractForEach srcs newPath allPaths)
/-- The call `sources.forEach(source => extractPaths(source, newPath, allPaths))` on
`sources = value.sources || []`. -/
def extractForEach : Option (List Tree) → List PathNode → List (List PathNode) → List (List PathNode)
  | none, _, allPaths => allPaths
  | some l, newPath, allPaths => extractSources l newPath allPaths
/-- The iterations of that `forEach`. -/
def extractSources : List Tree → List PathNode → List (List PathNode) → List (List PathNode)
  | [], _, allPaths => allPaths
  | source :: more, newPath, allPaths =>
    extractSources more newPath (extractPaths source newPath allPaths)
end

/-! ## `convertLineageToCSV` -/

/-- The expression `Math.max(...paths.map(p => p.length), 1)` of line 233. -/
def maxDepthOf (paths : List (List PathNode)) : Nat :=
  (paths.map List.length ++ [1]).foldl max 0

/-- The header built by lines 234-238. -/
def csvHeader (maxDepth : Nat) : String :=
  let csv := "Analyzed Object"
  let csv := forRange 1 maxDepth (fun i csv => csv ++ (",Level " ++ toString i ++ " Source")) csv
  csv ++ ",Table\n"

/-- The array `row` built by lines 242-246 for a path that is not empty. -/
def csvRow (maxDepth : Nat) (path : List PathNode) (first : PathNode) : List String :=
  let row := [first.name]
  let row := forRange 1 maxDepth
    (fun i row => row ++ [if i < path.length then (path.getD i first).name else ""]) row
  row ++ [(path.getLastD first).name]

/-- The expression `row.map(v => "\"" + v + "\"").join(',') + '\n'` of line 247. -/
def csvLine (row : List String) : String :=
  ",".intercalate (row.map (fun v => "\"" ++ v ++ "\"")) ++ "\n"

/-- The callback of `paths.forEach` (lines 240-248) as a step on `csv`. -/
def csvAppendRow (maxDepth : Nat) (csv : String) (path : List PathNode) : String :=
  match path with
  | [] => csv
  | first :: _ => csv ++ csvLine (csvRow maxDepth path first)

/-- The function `convertLineageToCSV(tree)`. -/
def convertLineageToCSV (tree : Tree) : String :=
  let paths := extractPaths tree [] []
  let maxDepth := maxDepthOf paths
  let csv := csvHeader maxDepth
  paths.foldl (csvAppendRow maxDepth) csv

/-! ## Examples of the specification -/

/-- The first example of the specification: a view over a base table and itself. -/
def ordersTree : Tree :=
  Tree.single "DB.S.ORDERS" (.mk (some "VIEW") (some [
    Tree.single "DB.S.RAW_ORDERS" (.mk (some "TABLE") none),
    Tree.single "DB.S.ORDERS" (.mk (some "LOOP") none)]))

/-- The second example of the specification: a base table. -/
def baseTableTree : Tree :=
  Tree.single "DB.S.T" (.mk (some "TABLE") (some []))

/-- A view over a node of kind `TABLE` that itself lists a source. -/
def tableWithSourcesTree : Tree :=
  Tree.single "DB.S.V" (.mk (some "VIEW") (some [
    Tree.single "DB.S.T" (.mk (some "TABLE") (some [
      Tree.single "DB.S.X" (.mk (some "TABLE") none)]))]))

/-- A root of kind `LOOP` that lists a source. -/
def loopRootTree : Tree :=
  Tree.single "DB.S.A" (.mk (some "LOOP") (some [
    Tree.single "DB.S.B" (.mk (some "TABLE") none)]))

/-- A view over two sources, the first of which has a source of its own. -/
def nestedViewTree : Tree :=
  Tree.single "DB.S.TOP" (.mk (some "VIEW") (some [
    Tree.single "DB.S.MID" (.mk (some "VIEW") (some [
      Tree.single "DB.S.BASE" (.mk (some "TABLE") none)])),
    Tree.single "DB.S.OTHER" (.mk none none)]))

/-! ## Notions of the specification -/

/-- The termination rule of the specification: a node is a leaf when its kind is `TABLE` or
`LOOP`, or when its sources are empty or missing. -/
def isLeaf (ty : Option String) (srcs : Option (List Tree)) : Bool :=
  decide (ty = some "TABLE" ∨ ty = some "LOOP" ∨ (sourcesOrEmpty srcs).length = 0)

mutual
/-- The number of leaves of a tree; nothing below a leaf is counted. -/
def leafCount : Tree → Nat
  | .mk entries => leafCountEntries entries
/-- The leaves under the entries of one object. -/
def leafCountEntries : List (String × LineageNode) → Nat
  | [] => 0
  | (_, .mk ty srcs) :: rest =>
    (if isLeaf ty srcs then 1 else leafCountOpt srcs) + leafCountEntries rest
/-- The leaves under the sources of a node, none when the field is missing. -/
def leafCountOpt : Option (List Tree) → Nat
  | none => 0
  | some l => leafCountSources l
/-- The leaves under a sequence of sources. -/
def leafCountSources : List Tree → Nat
  | [] => 0
  | source :: more => leafCount source + leafCountSources more
end

mutual
/-- The root-to-leaf paths of a tree in left-to-right depth-first order: a leaf has the one
path made of itself, another node has the paths of its sources, in order, each with the node
put in front. -/
def leafPaths : Tree → List (List PathNode)
  | .mk entries => leafPathsEntries entries
/-- The paths through the entries of one object. -/
def leafPathsEntries : List (String × LineageNode) → List (List PathNode)
  | [] => []
  | (key, .mk ty srcs) :: rest =>
    (if isLeaf ty srcs then [[{ name := key, type := ty }]]
     else (leafPathsOpt srcs).map (fun p => { name := key, type := ty } :: p))
      ++ leafPathsEntries rest
/-- The paths through the sources of a node, none when the field is missing. -/
def leafPathsOpt : Option (List Tree) → List (List PathNode)
  | none => []
  | some l => leafPathsSources l
/-- The paths through a sequence of sources, source after source. -/
def leafPathsSources : List Tree → List (List PathNode)
  | [] => []
  | source :: more => leafPaths source ++ leafPathsSources more
end

/-! ## The shape of the CSV text -/

/-- The array `row` that the callback of `paths.forEach` builds for a path, none when the
callback returns at once (an empty path). -/
def csvRowOf (maxDepth : Nat) (path : List PathNode) : Option (List String) :=
  match path with
  | [] => none
  | first :: _ => some (csvRow maxDepth path first)

/-- The value of `maxDepth` in `convertLineageToCSV(tree)`. -/
def csvMaxDepth (tree : Tree) : Nat :=
  maxDepthOf (extractPaths tree [] [])

/-- The data rows of `convertLineageToCSV(tree)`, each as its array of fields, in the order
in which they are appended to `csv`. -/
def csvDataRows (tree : Tree) : List (List String) :=
  (extractPaths tree [] []).filterMap (csvRowOf (csvMaxDepth tree))

/-! ## Lines of the CSV text -/

/-- The number of line breaks in a text, that is the number of its newline-terminated lines. -/
def lineCount (s : String) : Nat :=
  s.data.count '\n'

/-- No name on an extracted path contains a line break. -/
def NamesOnOneLine (tree : Tree) : Prop :=
  ∀ p ∈ extractPaths tree [] [], ∀ n ∈ p, '\n' ∉ n.name.data

/-! ## The CSV text as the specification words it -/

/-- The greatest length of a path, and 1 when there is no path. -/
def specMaxDepth (paths : List (List PathNode)) : Nat :=
  match (paths.map List.length).max? with
  | some m => m
  | none => 1

/-- The name of the node at index `i` (from 0) of a path that has more than `i` nodes, and
the empty string otherwise. -/
def specNameAt (path : List PathNode) (i : Nat) : String :=
  match path[i]? with
  | some node => node.name
  | none => ""

/-- The name of the last node of a path. -/
def specLastName (path : List PathNode) : String :=
  match path.getLast? with
  | some node => node.name
  | none => ""

/-- The columns of the header: `Analyzed Object`, then `Level i Source` for
`i = 1, ..., maxDepth - 1` in increasing order, then `Table`. -/
def specHeaderFields (maxDepth : Nat) : List String :=
  ["Analyzed Object"]
    ++ (List.range' 1 (maxDepth - 1)).map (fun i => "Level " ++ toString i ++ " Source")
    ++ ["Table"]

/-- The fields of the row of a path: the name of its first node, under `Level i Source` the
name of its node at index `i`, and under `Table` the name of its last node. -/
def specRowFields (maxDepth : Nat) (path : List PathNode) : List String :=
  [specNameAt path 0]
    ++ (List.range' 1 (maxDepth - 1)).map (fun i => specNameAt path i)
    ++ [specLastName path]

/-- A field wrapped in double quotes, nothing escaped. -/
def specQuoted (v : String) : String :=
  "\"" ++ v ++ "\""

/-- The CSV text for a list of paths: the header line, then one line per path in order,
every line being its fields joined by commas and ended by a line break. -/
def specCSV (paths : List (List PathNode)) : String :=
  String.join
    (((",".intercalate (specHeaderFields (specMaxDepth paths)))
        :: paths.map (fun p =>
            ",".intercalate ((specRowFields (specMaxDepth paths) p).map specQuoted))).map
      (fun line => line ++ "\n"))

/-! ## The text rendering as the specification words it -/

/-- The longest end of a list of characters that does not contain the separator: what
follows the last separator, or the whole list when there is none. -/
def afterLast (sep : Char) (cs : List Char) : List Char :=
  (cs.reverse.takeWhile (fun c => !decide (c = sep))).reverse

/-- The part of a qualified name after its last `.`, the whole name if it contains none. -/
def afterLastDot (name : String) : String :=
  String.mk (afterLast '.' name.data)

/-- A node below the root as the renderer meets it: for each of its ancestors at depths
`1..d-1`, outermost first, whether that ancestor was the last sibling at its level; whether
the node itself is the last sibling; its kind and its qualified name. -/
structure VisitedNode where
  ancestorsLast : List Bool
  isLast : Bool
  kind : Option String
  name : String
deriving DecidableEq, Repr

/-- The depth of a visited node, one more than the number of its ancestors below the root. -/
def VisitedNode.depth (v : VisitedNode) : Nat :=
  v.ancestorsLast.length + 1

mutual
/-- The nodes visited from one source object, in depth-first pre-order. -/
def visitTree : Tree → List Bool → Bool → List VisitedNode
  | .mk entries, anc, isLast => visitEntries entries anc isLast
/-- The nodes visited from the entries of one source object: each entry, then the nodes
under it unless its kind is `LOOP` or it has no sources, then the entries after it. -/
def visitEntries : List (String × LineageNode) → List Bool → Bool → List VisitedNode
  | [], _, _ => []
  | (key, .mk ty srcs) :: rest, anc, isLast =>
    { ancestorsLast := anc, isLast := isLast, kind := ty, name := key }
      :: ((if ty ≠ some "LOOP" ∧ (sourcesOrEmpty srcs).length > 0
            then visitOpt srcs (anc ++ [isLast]) else [])
          ++ visitEntries rest anc isLast)
/-- The nodes visited from the sources of a node, none when the field is missing. -/
def visitOpt : Option (List Tree) → List Bool → List VisitedNode
  | none, _ => []
  | some l, anc => visitSources l anc
/-- The nodes visited from a sequence of sources, in order; a source is the last sibling
when no source follows it. -/
def visitSources : List Tree → List Bool → List VisitedNode
  | [], _ => []
  | child :: more, anc => visitTree child anc more.isEmpty ++ visitSources more anc
end

/-- The tag of a kind: `[VIEW]`, `[TABLE]`, and `[?]` for any other or missing kind. -/
def specTag (kind : Option String) : String :=
  if kind = some "VIEW" then "[VIEW]" else if kind = some "TABLE" then "[TABLE]" else "[?]"

/-- The line of a visited node: the indent of its ancestors, its connector, its tag, a
space, the last segment of its name and a line break. -/
def specLine (v : VisitedNode) : String :=
  String.join (v.ancestorsLast.map (fun last => if last then "    " else "│   "))
    ++ (if v.isLast then "└── " else "├── ")
    ++ specTag v.kind ++ " " ++ afterLastDot v.name ++ "\n"

/-! ## Normalising missing fields -/

/-- A kind and what normalising may put in its place: the same kind, or `UNKNOWN` when the
kind is missing. -/
def NormalizesType (ty ty' : Option String) : Prop :=
  ty' = ty ∨ (ty = none ∧ ty' = some "UNKNOWN")

mutual
/-- The second tree is the first one in which, at some of the nodes, a missing kind has been
replaced by `UNKNOWN` and a missing `sources` by the empty sequence. -/
def Normalizes : Tree → Tree → Prop
  | .mk es, .mk es' => NormalizesEntries es es'
/-- The same for the entries of an object: same keys in the same order. -/
def NormalizesEntries : List (String × LineageNode) → List (String × LineageNode) → Prop
  | [], [] => True
  | (key, .mk ty srcs) :: rest, (key', .mk ty' srcs') :: rest' =>
    key' = key ∧ NormalizesType ty ty' ∧ NormalizesOpt srcs srcs' ∧ NormalizesEntries rest rest'
  | [], _ :: _ => False
  | _ :: _, [] => False
/-- The same for the field `sources`: kept missing, or replaced by `[]` when missing, or
present with its elements normalised. -/
def NormalizesOpt : Option (List Tree) → Option (List Tree) → Prop
  | none, none => True
  | none, some l' => l' = []
  | some l, some l' => NormalizesSources l l'
  | some _, none => False
/-- The same for a sequence of sources, element by element. -/
def NormalizesSources : List Tree → List Tree → Prop
  | [], [] => True
  | source :: more, source' :: more' => Normalizes source source' ∧ NormalizesSources more more'
  | [], _ :: _ => False
  | _ :: _, [] => False
end

mutual
/-- The tree in which every missing kind is `UNKNOWN` and every missing `sources` is `[]`. -/
def normalize : Tree → Tree
  | .mk es => .mk (normalizeEntries es)
/-- The entries of the normalised object. -/
def normalizeEntries : List (String × LineageNode) → List (String × LineageNode)
  | [] => []
  | (key, .mk ty srcs) :: rest =>
    (key, .mk (some (ty.getD "UNKNOWN")) (some (normalizeOpt srcs))) :: normalizeEntries rest
/-- The normalised field `sources`. -/
def normalizeOpt : Option (List Tree) → List Tree
  | none => []
  | some l => normalizeSources l
/-- The normalised sequence of sources. -/
def normalizeSources : List Tree → List Tree
  | [] => []
  | source :: more => normalize source :: normalizeSources more
end

/-- A view whose kind is missing over a source without any field. -/
def bareTree : Tree :=
  Tree.single "DB.S.V" (.mk none (some [Tree.single "DB.S.W" (.mk none none)]))

/-- The names along each path of a list of paths. -/
def pathNames (paths : List (List PathNode)) : List (List String) :=
  paths.map (fun p => p.map PathNode.name)

/-! ## The interactive view `TreeNode`

The component of lines 267-323 keeps one piece of state, `isExpanded`, created by
`useState(true)` for every mounted instance.  The view is represented by the instances that
are mounted: an instance whose block of line 304 is not rendered has no instance below it,
and instances that are rendered again after having been removed start from `useState(true)`.
The props `indent`, `isLast` and `prefix` only decide what is drawn and are left out.
Instances are addressed by their position, the indices of the sources from the root down. -/

/-- A mounted instance of `TreeNode`: the props `nodeKey` and `value`, the state
`isExpanded`, and the instances mounted for its sources. -/
inductive ViewNode where
  | mk (nodeKey : String) (value : LineageNode) (isExpanded : Bool) (children : List ViewNode)

/-- The state `isExpanded` of an instance. -/
def ViewNode.isExpanded : ViewNode → Bool
  | .mk _ _ e _ => e

/-- The instances mounted below an instance. -/
def ViewNode.children : ViewNode → List ViewNode
  | .mk _ _ _ cs => cs

/-- The prop `nodeKey` of an instance. -/
def ViewNode.nodeKey : ViewNode → String
  | .mk k _ _ _ => k

/-- An instance with other instances below it. -/
def ViewNode.setChildren : ViewNode → List ViewNode → ViewNode
  | .mk k v e _, cs => .mk k v e cs

/-- The condition `sources.length > 0 && type !== 'LOOP'` of lines 295 and 304, under which
an instance has a button and, when expanded, renders its sources. -/
def hasToggle (value : LineageNode) : Bool :=
  decide ((sourcesOrEmpty value.sources).length > 0 ∧ typeOrUnknown value.type ≠ "LOOP")

mutual
/-- The first render of `<TreeNode nodeKey value />`: the state starts at `true`, so the
sources are rendered when the node has a button; `none` when the render throws. -/
def mountNode : String → LineageNode → Option ViewNode
  | nodeKey, .mk ty srcs =>
    if hasToggle (.mk ty srcs) then
      (mountForEach srcs).map (fun children => .mk nodeKey (.mk ty srcs) true children)
    else some (.mk nodeKey (.mk ty srcs) true [])
/-- The call `sources.map((child, i) => ...)` of line 306 on `sources = value.sources || []`. -/
def mountForEach : Option (List Tree) → Option (List ViewNode)
  | none => some []
  | some l => mountSources l
/-- The elements of that `map`, one instance per source. -/
def mountSources : List Tree → Option (List ViewNode)
  | [] => some []
  | child :: more =>
    match mountChild child, mountSources more with
    | some c, some cs => some (c :: cs)
    | _, _ => none
/-- The element for one source: `childKey = Object.keys(child)[0]` and `child[childKey]`;
for an object without entries `value` is undefined and reading `value.type` throws. -/
def mountChild : Tree → Option ViewNode
  | .mk [] => none
  | .mk ((childKey, value) :: _) => mountNode childKey value
end

/-- The instances that the page renders for a root entry (lines 598-616): none for a root of
type `TABLE` or without sources, one per source otherwise. -/
def mountView (value : LineageNode) : Option (List ViewNode) :=
  if value.type = some "TABLE" then some []
  else if (sourcesOrEmpty value.sources).length > 0 then mountForEach value.sources
  else some []

/-- The click on the button of an instance, `setIsExpanded(!isExpanded)`, and the render
that follows: collapsed, the block of its sources is no longer rendered and the instances
below are removed; expanded, its sources are mounted anew.  `none` without a button. -/
def toggleNode : ViewNode → Option ViewNode
  | .mk nodeKey value isExpanded _ =>
    if hasToggle value then
      if isExpanded then some (.mk nodeKey value false [])
      else (mountForEach value.sources).map (fun children => .mk nodeKey value true children)
    else none

/-- The instance mounted at a position among the given sibling instances, if any. -/
def instanceAt : List Nat → List ViewNode → Option ViewNode
  | [], _ => none
  | [i], insts => insts[i]?
  | i :: j :: rest, insts => (insts[i]?).bind (fun c => instanceAt (j :: rest) c.children)

/-- The state `isExpanded` of the instance mounted at a position, if any. -/
def expandedAt (p : List Nat) (insts : List ViewNode) : Option Bool :=
  (instanceAt p insts).map ViewNode.isExpanded

/-- The click on the button of the instance at a position: only that instance is rendered
again, the instances above it and beside it are left as they are. -/
def toggleIn : List Nat → List ViewNode → Option (List ViewNode)
  | [], _ => none
  | [i], insts => (insts[i]?).bind (fun c => (toggleNode c).map (fun c' => insts.set i c'))
  | i :: j :: rest, insts =>
    (insts[i]?).bind (fun c =>
      (toggleIn (j :: rest) c.children).map (fun cs => insts.set i (c.setChildren cs)))

/-- A sequence of clicks, at the given positions in turn. -/
def togglesIn : List (List Nat) → List ViewNode → Option (List ViewNode)
  | [], insts => some insts
  | p :: ps, insts => (toggleIn p insts).bind (togglesIn ps)

/-- A root over a chain of two views and a base table. -/
def chainValue : LineageNode :=
  .mk (some "VIEW") (some [
    Tree.single "DB.S.X" (.mk (some "VIEW") (some [
      Tree.single "DB.S.D" (.mk (some "VIEW") (some [
        Tree.single "DB.S.E" (.mk (some "TABLE") none)]))]))])

/-- A root over two sources with the same qualified name. -/
def twinValue : LineageNode :=
  .mk (some "VIEW") (some [
    Tree.single "DB.S.A" (.mk (some "VIEW") (some [
      Tree.single "DB.S.T" (.mk (some "TABLE") none)])),
    Tree.single "DB.S.A" (.mk (some "VIEW") (some [
      Tree.single "DB.S.T" (.mk (some "TABLE") none)]))])

/-- The view `DB.S.D` of the chain. -/
def chainD : LineageNode :=
  .mk (some "VIEW") (some [Tree.single "DB.S.E" (.mk (some "TABLE") none)])

/-- The view `DB.S.X` of the chain. -/
def chainX : LineageNode :=
  .mk (some "VIEW") (some [Tree.single "DB.S.D" chainD])

/-- The view of the chain after a click on `DB.S.D`: `DB.S.X` expanded over `DB.S.D`
collapsed. -/
def chainViewInnerCollapsed : List ViewNode :=
  [.mk "DB.S.X" chainX true [.mk "DB.S.D" chainD false []]]

/-- The view of the chain with `DB.S.X` collapsed. -/
def chainViewOuterCollapsed : List ViewNode :=
  [.mk "DB.S.X" chainX false []]

/-- One of the two sources `DB.S.A` of the root with twin sources. -/
def twinA : LineageNode :=
  .mk (some "VIEW") (some [Tree.single "DB.S.T" (.mk (some "TABLE") none)])

/-- The view of the root with twin sources as first rendered. -/
def twinView : List ViewNode :=
  [.mk "DB.S.A" twinA true [.mk "DB.S.T" (.mk (some "TABLE") none) true []],
   .mk "DB.S.A" twinA true [.mk "DB.S.T" (.mk (some "TABLE") none) true []]]

/-- The view of the root with twin sources after a click on the first of them. -/
def twinViewFirstCollapsed : List ViewNode :=
  [.mk "DB.S.A" twinA false [],
   .mk "DB.S.A" twinA true [.mk "DB.S.T" (.mk (some "TABLE") none) true []]]

/-- The prop `value` of an instance. -/
def ViewNode.value : ViewNode → LineageNode
  | .mk _ v _ _ => v

/-- Every instance mounted among the given siblings or below them is expanded. -/
def AllExpanded (insts : List ViewNode) : Prop :=
  ∀ (q : List Nat) (inst : ViewNode), instanceAt q insts = some inst → inst.isExpanded = true

/-- The view of the chain as first rendered, and as rendered anew: everything expanded. -/
def chainView : List ViewNode :=
  [.mk "DB.S.X" chainX true [.mk "DB.S.D" chainD true [
    .mk "DB.S.E" (.mk (some "TABLE") none) true []]]]

/-! # Properties -/

/-! ## Path extraction is the enumeration of the leaves -/

theorem isLeaf_iff (ty : Option String) (srcs : Option (List Tree)) :
    ((sourcesOrEmpty srcs).length = 0 ∨ ty = some "TABLE" ∨ ty = some "LOOP") ↔
      isLeaf ty srcs = true := by
  simp only [isLeaf, decide_eq_true_eq]
  tauto

mutual
theorem extractPaths_eq : ∀ (t : Tree) (cur : List PathNode) (all : List (List PathNode)),
    extractPaths t cur all = all ++ (leafPaths t).map (fun p => cur ++ p)
  | .mk entries, cur, all => by
    simp only [extractPaths, leafPaths]
    exact extractEntries_eq entries cur all
theorem extractEntries_eq :
    ∀ (es : List (String × LineageNode)) (cur : List PathNode) (all : List (List PathNode)),
      extractEntries es cur all = all ++ (leafPathsEntries es).map (fun p => cur ++ p)
  | [], cur, all => by simp [extractEntries, leafPathsEntries]
  | (key, .mk ty srcs) :: rest, cur, all => by
    simp only [extractEntries, leafPathsEntries, isLeaf_iff]
    split
    · rw [extractEntries_eq rest]; simp
    · rw [extractEntries_eq rest, extractForEach_eq srcs]; simp [Function.comp_def]
theorem extractForEach_eq :
    ∀ (o : Option (List Tree)) (cur : List PathNode) (all : List (List PathNode)),
      extractForEach o cur all = all ++ (leafPathsOpt o).map (fun p => cur ++ p)
  | none, cur, all => by simp [extractForEach, leafPathsOpt]
  | some l, cur, all => by
    simp only [extractForEach, leafPathsOpt]
    exact extractSources_eq l cur all
theorem extractSources_eq :
    ∀ (l : List Tree) (cur : List PathNode) (all : List (List PathNode)),
      extractSources l cur all = all ++ (leafPathsSources l).map (fun p => cur ++ p)
  | [], cur, all => by simp [extractSources, leafPathsSources]
  | s :: ss, cur, all => by
    simp only [extractSources, leafPathsSources]
    rw [extractSources_eq ss, extractPaths_eq s]; simp
end

theorem extractPaths_nil (t : Tree) : extractPaths t [] [] = leafPaths t := by
  rw [extractPaths_eq]; simp

mutual
theorem leafPaths_length : ∀ t : Tree, (leafPaths t).length = leafCount t
  | .mk entries => by
    simp only [leafPaths, leafCount]
    exact leafPathsEntries_length entries
theorem leafPathsEntries_length :
    ∀ es : List (String × LineageNode), (leafPathsEntries es).length = leafCountEntries es
  | [] => by simp [leafPathsEntries, leafCountEntries]
  | (key, .mk ty srcs) :: rest => by
    simp only [leafPathsEntries, leafCountEntries, List.length_append]
    rw [leafPathsEntries_length rest]
    split
    · simp
    · simp [leafPathsOpt_length srcs]
theorem leafPathsOpt_length : ∀ o : Option (List Tree), (leafPathsOpt o).length = leafCountOpt o
  | none => by simp [leafPathsOpt, leafCountOpt]
  | some l => by
    simp only [leafPathsOpt, leafCountOpt]
    exact leafPathsSources_length l
theorem leafPathsSources_length :
    ∀ l : List Tree, (leafPathsSources l).length = leafCountSources l
  | [] => by simp [leafPathsSources, leafCountSources]
  | s :: ss => by
    simp only [leafPathsSources, leafCountSources, List.length_append]
    rw [leafPaths_length s, leafPathsSources_length ss]
end

/-- Every extracted path of an object starts at one of its entries. -/
theorem leafPathsEntries_head (es : List (String × LineageNode)) :
    ∀ p ∈ leafPathsEntries es, ∃ e ∈ es, p.head? = some { name := e.1, type := e.2.type } := by
  induction es with
  | nil => simp [leafPathsEntries]
  | cons e rest ih =>
    obtain ⟨key, ty, srcs⟩ := e
    intro p hp
    simp only [leafPathsEntries, List.mem_append] at hp
    rcases hp with hp | hp
    · refine ⟨_, List.mem_cons_self _ _, ?_⟩
      split at hp
      · simp only [List.mem_singleton] at hp
        subst hp; rfl
      · simp only [List.mem_map] at hp
        obtain ⟨q, -, rfl⟩ := hp; rfl
    · obtain ⟨e, he, h⟩ := ih p hp
      exact ⟨e, List.mem_cons_of_mem _ he, h⟩

/-! ## The shape of the CSV text -/

theorem join_cons (a : String) (l : List String) :
    String.join (a :: l) = a ++ String.join l := by
  apply String.ext
  simp [String.data_join]

theorem join_append (l₁ l₂ : List String) :
    String.join (l₁ ++ l₂) = String.join l₁ ++ String.join l₂ := by
  apply String.ext
  simp [String.data_join]

theorem join_nil : String.join [] = "" := rfl

theorem forLoop_eq_foldl {σ : Type} (body : Nat → σ → σ) (fuel i : Nat) (s : σ) :
    forLoop body fuel i s = (List.range' i fuel).foldl (fun s i => body i s) s := by
  induction fuel generalizing i s with
  | zero => rfl
  | succ n ih => simp [forLoop, List.range', ih]

theorem foldl_append_string (f : Nat → String) (l : List Nat) (s : String) :
    l.foldl (fun s i => s ++ f i) s = s ++ String.join (l.map f) := by
  induction l generalizing s with
  | nil => simp [join_nil]
  | cons a l ih => simp [ih, join_cons, String.append_assoc]

theorem foldl_append_list {α : Type} (f : Nat → α) (l : List Nat) (row : List α) :
    l.foldl (fun row i => row ++ [f i]) row = row ++ l.map f := by
  induction l generalizing row with
  | nil => simp
  | cons a l ih => simp [ih]

theorem foldl_csvAppendRow (maxDepth : Nat) (paths : List (List PathNode)) (csv : String) :
    paths.foldl (csvAppendRow maxDepth) csv
      = csv ++ String.join ((paths.filterMap (csvRowOf maxDepth)).map csvLine) := by
  induction paths generalizing csv with
  | nil => simp [join_nil]
  | cons p ps ih =>
    cases p with
    | nil => simp [csvAppendRow, csvRowOf, ih]
    | cons first more =>
      simp [csvAppendRow, csvRowOf, ih, join_cons, String.append_assoc]

/-- The text returned by `convertLineageToCSV` is the header followed by the data rows. -/
theorem convertLineageToCSV_eq (t : Tree) :
    convertLineageToCSV t
      = csvHeader (csvMaxDepth t) ++ String.join ((csvDataRows t).map csvLine) := by
  simp only [convertLineageToCSV, csvDataRows, csvMaxDepth]
  exact foldl_csvAppendRow _ _ _

theorem csvRowOf_cons (maxDepth : Nat) (first : PathNode) (more : List PathNode) :
    csvRowOf maxDepth (first :: more) = some (csvRow maxDepth (first :: more) first) := rfl

theorem leafPaths_ne_nil : ∀ t : Tree, ∀ p ∈ leafPaths t, p ≠ []
  | .mk entries => by
    simp only [leafPaths]
    intro p hp
    obtain ⟨e, -, h⟩ := leafPathsEntries_head entries p hp
    intro hnil
    simp [hnil] at h

/-- On paths that are not empty every path gives a row. -/
theorem filterMap_csvRowOf (maxDepth : Nat) (paths : List (List PathNode))
    (h : ∀ p ∈ paths, p ≠ []) :
    paths.filterMap (csvRowOf maxDepth)
      = paths.map (fun p => csvRow maxDepth p (p.headD { name := "", type := none })) := by
  induction paths with
  | nil => rfl
  | cons p ps ih =>
    have hps : ∀ q ∈ ps, q ≠ [] := fun q hq => h q (List.mem_cons_of_mem _ hq)
    cases p with
    | nil => exact absurd rfl (h [] (List.mem_cons_self _ _))
    | cons first more => simp [csvRowOf, ih hps]

theorem csvDataRows_eq (t : Tree) :
    csvDataRows t
      = (leafPaths t).map
          (fun p => csvRow (csvMaxDepth t) p (p.headD { name := "", type := none })) := by
  simp only [csvDataRows, extractPaths_nil]
  exact filterMap_csvRowOf _ _ (leafPaths_ne_nil t)

theorem csvDataRows_length (t : Tree) : (csvDataRows t).length = leafCount t := by
  rw [csvDataRows_eq, List.length_map, leafPaths_length]

/-! ## Lines of the CSV text -/

theorem lineCount_append (a b : String) : lineCount (a ++ b) = lineCount a + lineCount b := by
  simp [lineCount, String.data_append, List.count_append]

theorem lineCount_eq_zero {s : String} (h : '\n' ∉ s.data) : lineCount s = 0 :=
  List.count_eq_zero.2 h

theorem digitChar_ne_newline (k : Nat) (h : k < 10) : Nat.digitChar k ≠ '\n' := by
  interval_cases k <;> decide

theorem toDigitsCore_ne_newline (fuel : Nat) : ∀ (n : Nat) (ds : List Char),
    (∀ c ∈ ds, c ≠ '\n') → ∀ c ∈ Nat.toDigitsCore 10 fuel n ds, c ≠ '\n' := by
  induction fuel with
  | zero => intro n ds h; simpa [Nat.toDigitsCore] using h
  | succ f ih =>
    intro n ds h
    have hd : ∀ c ∈ Nat.digitChar (n % 10) :: ds, c ≠ '\n' := by
      intro c hc
      rcases List.mem_cons.1 hc with rfl | hc
      · exact digitChar_ne_newline _ (Nat.mod_lt _ (by decide))
      · exact h c hc
    simp only [Nat.toDigitsCore]
    split
    · exact hd
    · exact ih _ _ hd

theorem lineCount_toString (n : Nat) : lineCount (toString n) = 0 := by
  apply lineCount_eq_zero
  intro hmem
  have hdata : (toString n).data = Nat.toDigits 10 n := rfl
  rw [hdata] at hmem
  exact toDigitsCore_ne_newline _ _ [] (by simp) _ hmem rfl

theorem lineCount_join_zero (l : List String) (h : ∀ s ∈ l, lineCount s = 0) :
    lineCount (String.join l) = 0 := by
  induction l with
  | nil => rfl
  | cons a l ih =>
    rw [join_cons, lineCount_append, h a (List.mem_cons_self _ _),
      ih (fun s hs => h s (List.mem_cons_of_mem _ hs))]

theorem csvHeader_eq (maxDepth : Nat) :
    csvHeader maxDepth = "Analyzed Object"
      ++ String.join ((List.range' 1 (maxDepth - 1)).map
          (fun i => ",Level " ++ toString i ++ " Source"))
      ++ ",Table\n" := by
  simp only [csvHeader, forRange, forLoop_eq_foldl]
  rw [foldl_append_string (fun i => ",Level " ++ toString i ++ " Source")]

/-- The header is one line. -/
theorem lineCount_csvHeader (maxDepth : Nat) : lineCount (csvHeader maxDepth) = 1 := by
  rw [csvHeader_eq, lineCount_append, lineCount_append, lineCount_join_zero]
  · rfl
  · intro s hs
    obtain ⟨i, -, rfl⟩ := List.mem_map.1 hs
    rw [lineCount_append, lineCount_append, lineCount_toString]
    rfl

theorem intercalate_go_data (sep : String) (l : List String) (acc : String) :
    (String.intercalate.go acc sep l).data
      = acc.data ++ (l.map (fun s => sep.data ++ s.data)).flatten := by
  induction l generalizing acc with
  | nil => simp [String.intercalate.go]
  | cons a l ih => simp [String.intercalate.go, ih]

theorem intercalate_cons_data (sep a : String) (l : List String) :
    (sep.intercalate (a :: l)).data
      = a.data ++ (l.map (fun s => sep.data ++ s.data)).flatten := by
  simp only [String.intercalate, intercalate_go_data]

theorem lineCount_intercalate (l : List String) (h : ∀ s ∈ l, lineCount s = 0) :
    lineCount (",".intercalate l) = 0 := by
  cases l with
  | nil => rfl
  | cons a l =>
    apply lineCount_eq_zero
    rw [intercalate_cons_data]
    intro hmem
    rcases List.mem_append.1 hmem with hm | hm
    · have := h a (List.mem_cons_self _ _)
      exact List.count_eq_zero.1 this hm
    · obtain ⟨cs, hcs, hc⟩ := List.mem_flatten.1 hm
      obtain ⟨s, hs, rfl⟩ := List.mem_map.1 hcs
      rcases List.mem_append.1 hc with hc | hc
      · revert hc; decide
      · exact List.count_eq_zero.1 (h s (List.mem_cons_of_mem _ hs)) hc

/-- A row whose fields contain no line break is one line. -/
theorem lineCount_csvLine (row : List String) (h : ∀ v ∈ row, '\n' ∉ v.data) :
    lineCount (csvLine row) = 1 := by
  rw [csvLine, lineCount_append, lineCount_intercalate]
  · rfl
  · intro s hs
    obtain ⟨v, hv, rfl⟩ := List.mem_map.1 hs
    rw [lineCount_append, lineCount_append, lineCount_eq_zero (h v hv)]
    rfl

theorem csvRow_eq (maxDepth : Nat) (path : List PathNode) (first : PathNode) :
    csvRow maxDepth path first = [first.name]
      ++ (List.range' 1 (maxDepth - 1)).map
          (fun i => if i < path.length then (path.getD i first).name else "")
      ++ [(path.getLastD first).name] := by
  simp only [csvRow, forRange, forLoop_eq_foldl]
  rw [foldl_append_list (fun i => if i < path.length then (path.getD i first).name else "")]

theorem getLastD_mem {α : Type} (l : List α) (d : α) : (d :: l).getLastD d ∈ d :: l := by
  induction l generalizing d with
  | nil => simp
  | cons b bs ih =>
    simp only [List.getLastD_cons] at ih ⊢
    cases bs with
    | nil => simp
    | cons c cs =>
      have := ih b
      simp only [List.getLastD_cons] at this ⊢
      exact List.mem_cons_of_mem _ this

/-- Every field of a row is the name of a node of its path, or empty. -/
theorem csvRow_mem (maxDepth : Nat) (first : PathNode) (more : List PathNode) :
    ∀ v ∈ csvRow maxDepth (first :: more) first, v = "" ∨ ∃ n ∈ first :: more, v = n.name := by
  intro v hv
  rw [csvRow_eq] at hv
  simp only [List.mem_append, List.mem_singleton, List.mem_map] at hv
  rcases hv with (rfl | ⟨i, -, rfl⟩) | rfl
  · exact Or.inr ⟨first, List.mem_cons_self _ _, rfl⟩
  · split
    · rename_i hi
      refine Or.inr ⟨_, ?_, rfl⟩
      rw [List.getD_eq_getElem _ _ hi]
      exact List.getElem_mem _
    · exact Or.inl rfl
  · exact Or.inr ⟨_, getLastD_mem _ _, rfl⟩

theorem lineCount_rows (rows : List (List String)) (h : ∀ r ∈ rows, lineCount (csvLine r) = 1) :
    lineCount (String.join (rows.map csvLine)) = rows.length := by
  induction rows with
  | nil => rfl
  | cons r rs ih =>
    rw [List.map_cons, join_cons, lineCount_append, h r (List.mem_cons_self _ _),
      ih (fun q hq => h q (List.mem_cons_of_mem _ hq)), List.length_cons, Nat.add_comm]

/-- When no name contains a line break, the CSV text has one line per row after the header. -/
theorem lineCount_convertLineageToCSV (t : Tree) (h : NamesOnOneLine t) :
    lineCount (convertLineageToCSV t) = 1 + (csvDataRows t).length := by
  rw [convertLineageToCSV_eq, lineCount_append, lineCount_csvHeader, lineCount_rows]
  intro r hr
  simp only [csvDataRows, List.mem_filterMap] at hr
  obtain ⟨p, hp, hrow⟩ := hr
  cases p with
  | nil => simp [csvRowOf] at hrow
  | cons first more =>
    rw [csvRowOf_cons, Option.some.injEq] at hrow
    subst hrow
    apply lineCount_csvLine
    intro v hv
    rcases csvRow_mem _ first more v hv with rfl | ⟨n, hn, rfl⟩
    · decide
    · exact h _ hp n hn

/-! ## C1, C2, C5: rows, first field, order of the paths -/

/-- C1: the number of data rows of the CSV export is the number of leaves of the tree.
The text returned by `convertLineageToCSV` is the header followed by the data rows, there
are as many data rows as the tree has leaves under the termination rule, and when no name
contains a line break the text has exactly that many lines after the header line. -/
theorem C1_csv_data_rows_eq_leaves (t : Tree) :
    convertLineageToCSV t
        = csvHeader (csvMaxDepth t) ++ String.join ((csvDataRows t).map csvLine)
      ∧ (csvDataRows t).length = leafCount t
      ∧ lineCount (csvHeader (csvMaxDepth t)) = 1
      ∧ (NamesOnOneLine t → lineCount (convertLineageToCSV t) = 1 + leafCount t) := by
  refine ⟨convertLineageToCSV_eq t, csvDataRows_length t, lineCount_csvHeader _, ?_⟩
  intro h
  rw [lineCount_convertLineageToCSV t h, csvDataRows_length]

/-- C1 at the first example of the specification: two leaves, two lines after the header. -/
theorem C1_csv_data_rows_eq_leaves_witness :
    NamesOnOneLine ordersTree ∧ leafCount ordersTree = 2
      ∧ lineCount (convertLineageToCSV ordersTree) = 1 + leafCount ordersTree :=
  ⟨by unfold NamesOnOneLine; decide, by decide,
    (C1_csv_data_rows_eq_leaves ordersTree).2.2.2 (by unfold NamesOnOneLine; decide)⟩

/-- C2: in a tree with exactly one root entry every path recorded by `extractPaths` starts
with the node of the root, and every data row of `convertLineageToCSV` has the qualified name
of the root as its first field. -/
theorem C2_first_field_is_root (key : String) (value : LineageNode) :
    (∀ p ∈ extractPaths (Tree.single key value) [] [],
        p.head? = some { name := key, type := value.type })
      ∧ (∀ row ∈ csvDataRows (Tree.single key value), row.head? = some key)
      ∧ convertLineageToCSV (Tree.single key value)
          = csvHeader (csvMaxDepth (Tree.single key value))
            ++ String.join ((csvDataRows (Tree.single key value)).map csvLine) := by
  have hpaths : ∀ p ∈ extractPaths (Tree.single key value) [] [],
      p.head? = some { name := key, type := value.type } := by
    intro p hp
    rw [extractPaths_nil] at hp
    obtain ⟨e, he, h⟩ := leafPathsEntries_head [(key, value)] p (by simpa [Tree.single, leafPaths] using hp)
    simp only [List.mem_singleton] at he
    subst he
    exact h
  refine ⟨hpaths, ?_, convertLineageToCSV_eq _⟩
  intro row hrow
  simp only [csvDataRows, List.mem_filterMap] at hrow
  obtain ⟨p, hp, hrow⟩ := hrow
  have hhead := hpaths p hp
  cases p with
  | nil => simp at hhead
  | cons first more =>
    rw [csvRowOf_cons, Option.some.injEq] at hrow
    subst hrow
    simp only [List.head?_cons, Option.some.injEq] at hhead
    subst hhead
    rw [csvRow_eq]
    rfl

theorem leafPathsOpt_eq (srcs : Option (List Tree)) :
    leafPathsOpt srcs = ((sourcesOrEmpty srcs).map leafPaths).flatten := by
  cases srcs with
  | none => rfl
  | some l =>
    simp only [leafPathsOpt, sourcesOrEmpty]
    induction l with
    | nil => rfl
    | cons s ss ih => simp [leafPathsSources, ih]

/-- C5: the paths that `extractPaths` appends to its accumulator are, in order, the
left-to-right depth-first enumeration of the leaves: a leaf gives the one path made of
itself, another node with sources `s1..sn` gives the paths of `s1`, then those of `s2`, and
so on, each with the node in front; so the node is the first element of each of them and
there is one path for each of its leaves. -/
theorem C5_extractPaths_depth_first (t : Tree) (currentPath : List PathNode)
    (allPaths : List (List PathNode)) :
    extractPaths t currentPath allPaths
        = allPaths ++ (leafPaths t).map (fun p => currentPath ++ p)
      ∧ (leafPaths t).length = leafCount t
      ∧ (∀ (key : String) (ty : Option String) (srcs : Option (List Tree)),
          leafPaths (Tree.single key (.mk ty srcs))
            = if isLeaf ty srcs then [[{ name := key, type := ty }]]
              else (((sourcesOrEmpty srcs).map leafPaths).flatten).map
                (fun p => { name := key, type := ty } :: p)) := by
  refine ⟨extractPaths_eq t currentPath allPaths, leafPaths_length t, ?_⟩
  intro key ty srcs
  simp only [Tree.single, leafPaths, leafPathsEntries, List.append_nil, leafPathsOpt_eq]

/-! ## C3, C4: where the text renderer stops -/

/-- Below the root a node of kind `LOOP` is rendered as one line and its sources are never
visited, whatever they are. -/
theorem renderEntries_loop (key : String) (srcs : Option (List Tree))
    (rest : List (String × LineageNode)) (indent : Nat) (pfx : String) (isLast : Bool)
    (text : String) :
    renderEntries ((key, .mk (some "LOOP") srcs) :: rest) (indent + 1) pfx isLast text
      = renderEntries rest (indent + 1) pfx isLast
          (text ++ (pfx ++ connector isLast ++ "[?]" ++ " " ++ lastSegment key ++ "\n")) := by
  have h1 : typeOrUnknown (some "LOOP") = "LOOP" := by decide
  have h2 : icon "LOOP" = "[?]" := by decide
  simp [renderEntries, h1, h2]

/-- C3 at a nested node of kind `TABLE` with a source: `renderLineageAsText` emits a line for
the source `DB.S.X` of the table `DB.S.T`, while `extractPaths` closes its path at `DB.S.T`. -/
theorem C3_nested_table_sources_rendered :
    renderLineageAsText tableWithSourcesTree 0 "" true
        = analyzingHeader "DB.S.V"
          ++ "DEPENDENCIES:\n\n└── [TABLE] T\n    └── [TABLE] X\n"
      ∧ extractPaths tableWithSourcesTree [] []
        = [[{ name := "DB.S.V", type := some "VIEW" },
            { name := "DB.S.T", type := some "TABLE" }]] := by
  constructor
  · rfl
  · decide

/-- C4 at a root of kind `LOOP` with a source: `renderLineageAsText` emits a line for the
source `DB.S.B` of the root, while `extractPaths` closes its path at the root. -/
theorem C4_loop_root_sources_rendered :
    renderLineageAsText loopRootTree 0 "" true
        = analyzingHeader "DB.S.A" ++ "DEPENDENCIES:\n\n└── [TABLE] B\n"
      ∧ extractPaths loopRootTree [] [] = [[{ name := "DB.S.A", type := some "LOOP" }]] := by
  constructor
  · rfl
  · decide

/-! ## C8: the first example of the specification -/

/-- C8 as stated fails: the export of the example has no two data rows whose last fields
are `RAW_ORDERS` and `ORDERS`, because the `Table` column holds the full qualified name. -/
theorem C8_terminal_field_not_bare_name :
    ¬ ∃ r₁ r₂ : List String, csvDataRows ordersTree = [r₁, r₂]
        ∧ r₁.head? = some "DB.S.ORDERS" ∧ r₂.head? = some "DB.S.ORDERS"
        ∧ r₁.getLast? = some "RAW_ORDERS" ∧ r₂.getLast? = some "ORDERS" := by
  have h : csvDataRows ordersTree
      = [["DB.S.ORDERS", "DB.S.RAW_ORDERS", "DB.S.RAW_ORDERS"],
         ["DB.S.ORDERS", "DB.S.ORDERS", "DB.S.ORDERS"]] := by decide
  rintro ⟨r₁, r₂, hrows, -, -, h₁, -⟩
  rw [h] at hrows
  simp only [List.cons.injEq, and_true] at hrows
  obtain ⟨rfl, -⟩ := hrows
  revert h₁
  decide

/-- C8, amended: the export of the example has exactly two data rows, both with first field
`DB.S.ORDERS`, and the `Table` field is `DB.S.RAW_ORDERS` in the first row and `DB.S.ORDERS`
in the second. -/
theorem C8_orders_example_rows :
    csvDataRows ordersTree
        = [["DB.S.ORDERS", "DB.S.RAW_ORDERS", "DB.S.RAW_ORDERS"],
           ["DB.S.ORDERS", "DB.S.ORDERS", "DB.S.ORDERS"]]
      ∧ convertLineageToCSV ordersTree
        = "Analyzed Object,Level 1 Source,Table\n"
          ++ "\"DB.S.ORDERS\",\"DB.S.RAW_ORDERS\",\"DB.S.RAW_ORDERS\"\n"
          ++ "\"DB.S.ORDERS\",\"DB.S.ORDERS\",\"DB.S.ORDERS\"\n" := by
  constructor
  · decide
  · rfl

/-! ## C9, C10: a root that is a base table, a view root without sources -/

theorem analyzingHeader_eq (key : String) :
    analyzingHeader key = "\nANALYZING: " ++ key ++ "\n"
      ++ "================================================================================"
      ++ "\n\n" := rfl

theorem maxDepthOf_singleton (node : PathNode) : maxDepthOf [[node]] = 1 := rfl

theorem csvLine_pair (a b : String) :
    csvLine [a, b] = "\"" ++ a ++ "\",\"" ++ b ++ "\"\n" := by
  have h : ∀ s : String, "\"," ++ ("\"" ++ s) = "\",\"" ++ s := fun s => by
    rw [← String.append_assoc]; rfl
  simp only [csvLine, String.intercalate, String.intercalate.go, List.map_cons, List.map_nil,
    String.append_assoc]
  have h₂ : "\"\n" = "\"" ++ "\n" := by decide
  rw [h₂]
  show "\"" ++ (a ++ ("\"" ++ ("," ++ ("\"" ++ (b ++ ("\"" ++ "\n"))))))
    = "\"" ++ (a ++ ("\",\"" ++ (b ++ ("\"" ++ "\n"))))
  rw [← h, ← String.append_assoc "\"" ","]
  rfl

/-- The export of a tree whose only extracted path is the root alone. -/
theorem convertLineageToCSV_root_only (t : Tree) (key : String) (ty : Option String)
    (h : extractPaths t [] [] = [[{ name := key, type := ty }]]) :
    csvDataRows t = [[key, key]]
      ∧ convertLineageToCSV t
        = "Analyzed Object,Table\n" ++ ("\"" ++ key ++ "\",\"" ++ key ++ "\"\n") := by
  have hrows : csvDataRows t = [[key, key]] := by
    simp only [csvDataRows, csvMaxDepth, h]
    rfl
  refine ⟨hrows, ?_⟩
  rw [convertLineageToCSV_eq, hrows, csvMaxDepth, h, maxDepthOf_singleton]
  simp only [List.map_cons, List.map_nil, join_cons, join_nil, csvLine_pair]
  have : csvHeader 1 = "Analyzed Object,Table\n" := by decide
  rw [this, String.append_empty]

/-- C9: for a single root entry of kind `TABLE`, whatever its sources, `renderLineageAsText`
returns the header (a line break, `ANALYZING: ` and the name, a line break, a rule of 80 `=`,
two line breaks) followed only by the line `This is a BASE TABLE - No dependencies`, and
`convertLineageToCSV` returns the header `Analyzed Object,Table` followed by exactly one data
row, whose two quoted fields are both the qualified name of the root. -/
theorem C9_table_root (key : String) (srcs : Option (List Tree)) :
    renderLineageAsText (Tree.single key (.mk (some "TABLE") srcs)) 0 "" true
        = "\nANALYZING: " ++ key ++ "\n"
          ++ "================================================================================"
          ++ "\n\n" ++ "This is a BASE TABLE - No dependencies\n"
      ∧ csvDataRows (Tree.single key (.mk (some "TABLE") srcs)) = [[key, key]]
      ∧ convertLineageToCSV (Tree.single key (.mk (some "TABLE") srcs))
        = "Analyzed Object,Table\n" ++ ("\"" ++ key ++ "\",\"" ++ key ++ "\"\n") := by
  have hty : typeOrUnknown (some "TABLE") = "TABLE" := by decide
  refine ⟨?_, convertLineageToCSV_root_only _ key (some "TABLE") ?_⟩
  · simp only [Tree.single, renderLineageAsText, renderEntries, hty, if_true, ← analyzingHeader_eq]
    simp
  · simp [Tree.single, extractPaths, extractEntries]

/-- C10: for a single root entry of kind `VIEW` whose sources are missing or empty,
`renderLineageAsText` returns the header for the root followed only by the line
`No dependencies found`, and `convertLineageToCSV` produces exactly one data row. -/
theorem C10_view_root_without_sources (key : String) :
    (∀ srcs : Option (List Tree), srcs = none ∨ srcs = some [] →
      renderLineageAsText (Tree.single key (.mk (some "VIEW") srcs)) 0 "" true
          = "\nANALYZING: " ++ key ++ "\n"
            ++ "================================================================================"
            ++ "\n\n" ++ "No dependencies found\n"
        ∧ csvDataRows (Tree.single key (.mk (some "VIEW") srcs)) = [[key, key]]
        ∧ convertLineageToCSV (Tree.single key (.mk (some "VIEW") srcs))
          = "Analyzed Object,Table\n" ++ ("\"" ++ key ++ "\",\"" ++ key ++ "\"\n")) := by
  intro srcs hsrcs
  have hty : typeOrUnknown (some "VIEW") = "VIEW" := by decide
  have hne : ¬ ("VIEW" = "TABLE") := by decide
  have hlen : (sourcesOrEmpty srcs).length = 0 := by
    rcases hsrcs with rfl | rfl <;> rfl
  refine ⟨?_, convertLineageToCSV_root_only _ key (some "VIEW") ?_⟩
  · simp only [Tree.single, renderLineageAsText, renderEntries, hty, hne, hlen, if_true, if_false,
      and_self, ← analyzingHeader_eq]
    simp
  · simp [Tree.single, extractPaths, extractEntries, hlen]

/-- C10 at `DB.S.V` with the field `sources` missing. -/
theorem C10_view_root_without_sources_witness :
    renderLineageAsText (Tree.single "DB.S.V" (.mk (some "VIEW") none)) 0 "" true
        = "\nANALYZING: " ++ "DB.S.V" ++ "\n"
          ++ "================================================================================"
          ++ "\n\n" ++ "No dependencies found\n"
      ∧ csvDataRows (Tree.single "DB.S.V" (.mk (some "VIEW") none)) = [["DB.S.V", "DB.S.V"]]
      ∧ convertLineageToCSV (Tree.single "DB.S.V" (.mk (some "VIEW") none))
        = "Analyzed Object,Table\n" ++ ("\"" ++ "DB.S.V" ++ "\",\"" ++ "DB.S.V" ++ "\"\n") :=
  C10_view_root_without_sources "DB.S.V" none (Or.inl rfl)

/-! ## C6: the CSV text -/

theorem intercalate_cons (a : String) (l : List String) :
    ",".intercalate (a :: l) = a ++ String.join (l.map (fun s => "," ++ s)) := by
  apply String.ext
  rw [intercalate_cons_data, String.data_append, String.data_join, List.map_map]
  rfl

theorem foldl_max_ge (l : List Nat) (a : Nat) : a ≤ l.foldl max a := by
  induction l generalizing a with
  | nil => exact Nat.le_refl _
  | cons b l ih => exact Nat.le_trans (Nat.le_max_left a b) (ih _)

theorem maxDepthOf_eq_specMaxDepth (paths : List (List PathNode)) (h : ∀ p ∈ paths, p ≠ []) :
    maxDepthOf paths = specMaxDepth paths := by
  cases paths with
  | nil => rfl
  | cons p ps =>
    have hp : 1 ≤ p.length := by
      cases p with
      | nil => exact absurd rfl (h [] (List.mem_cons_self _ _))
      | cons a as => simp
    have hge := foldl_max_ge (ps.map List.length) p.length
    simp only [maxDepthOf, specMaxDepth, List.map_cons, List.cons_append, List.foldl_cons,
      List.foldl_append, List.foldl_nil, List.max?_cons', Nat.zero_max]
    omega

theorem csvHeader_eq_spec (maxDepth : Nat) :
    csvHeader maxDepth = ",".intercalate (specHeaderFields maxDepth) ++ "\n" := by
  have h : ",Table\n" = "," ++ "Table" ++ "\n" := by decide
  rw [csvHeader_eq, specHeaderFields, List.append_assoc, List.singleton_append, intercalate_cons,
    List.map_append, join_append, List.map_map, h]
  simp only [List.map_cons, List.map_nil, join_cons, join_nil, String.append_assoc,
    String.append_empty]
  rfl

theorem csvRow_eq_spec (maxDepth : Nat) (first : PathNode) (more : List PathNode) :
    csvRow maxDepth (first :: more) first = specRowFields maxDepth (first :: more) := by
  have hmid : (List.range' 1 (maxDepth - 1)).map
        (fun i => if i < (first :: more).length then ((first :: more).getD i first).name else "")
      = (List.range' 1 (maxDepth - 1)).map (fun i => specNameAt (first :: more) i) := by
    apply List.map_congr_left
    intro i _
    simp only [specNameAt]
    split
    · rename_i hi
      rw [List.getD_eq_getElem _ _ hi, List.getElem?_eq_getElem hi]
    · rename_i hi
      rw [List.getElem?_eq_none (Nat.le_of_not_lt hi)]
  have hlast : ((first :: more).getLastD first).name = specLastName (first :: more) := by
    simp only [specLastName, List.getLastD_eq_getLast?, List.getLast?_cons]
    cases more.getLast? <;> rfl
  have hfirst : specNameAt (first :: more) 0 = first.name := by
    simp [specNameAt]
  rw [csvRow_eq, specRowFields, hmid, hlast, hfirst]

theorem csvLine_eq_spec (row : List String) :
    csvLine row = ",".intercalate (row.map specQuoted) ++ "\n" := rfl

/-- C6: with `maxDepth` the greatest length of an extracted path (1 when there is none),
`convertLineageToCSV` returns the header line `Analyzed Object`, `Level i Source` for
`i = 1..maxDepth-1`, `Table`, joined by commas, followed by one line per extracted path in
path order, whose fields are the unescaped names in double quotes joined by commas: the name
of the first node, under `Level i Source` the name of the node at index `i` or the empty
string, and under `Table` the name of the last node. -/
theorem C6_csv_text (t : Tree) :
    convertLineageToCSV t = specCSV (extractPaths t [] []) := by
  have hne : ∀ p ∈ extractPaths t [] [], p ≠ [] := by
    rw [extractPaths_nil]; exact leafPaths_ne_nil t
  have hmax : csvMaxDepth t = specMaxDepth (extractPaths t [] []) :=
    maxDepthOf_eq_specMaxDepth _ hne
  rw [convertLineageToCSV_eq, specCSV, List.map_cons, join_cons, csvHeader_eq_spec, hmax]
  congr 2
  simp only [csvDataRows, hmax, List.map_map]
  generalize specMaxDepth (extractPaths t [] []) = m
  generalize extractPaths t [] [] = paths at hne
  induction paths with
  | nil => rfl
  | cons p ps ih =>
    have hps : ∀ q ∈ ps, q ≠ [] := fun q hq => hne q (List.mem_cons_of_mem _ hq)
    cases p with
    | nil => exact absurd rfl (hne [] (List.mem_cons_self _ _))
    | cons first more =>
      simp only [List.filterMap_cons, csvRowOf_cons, List.map_cons, ih hps, Function.comp_apply,
        csvRow_eq_spec, csvLine_eq_spec]

/-! ## C7: the lines of the text rendering -/

theorem splitChars_ne_nil (sep : Char) (cs : List Char) : splitChars sep cs ≠ [] := by
  cases cs with
  | nil => simp [splitChars]
  | cons c cs =>
    simp only [splitChars]
    split
    · simp
    · split <;> simp

theorem splitChars_of_not_mem (sep : Char) (cs : List Char) (h : sep ∉ cs) :
    splitChars sep cs = [cs] := by
  induction cs with
  | nil => rfl
  | cons c cs ih =>
    have hc : ¬ c = sep := fun e => h (e ▸ List.mem_cons_self _ _)
    have hcs : sep ∉ cs := fun m => h (List.mem_cons_of_mem _ m)
    simp [splitChars, hc, ih hcs]

theorem splitChars_length_of_mem (sep : Char) (cs : List Char) (h : sep ∈ cs) :
    2 ≤ (splitChars sep cs).length := by
  induction cs with
  | nil => simp at h
  | cons c cs ih =>
    simp only [splitChars]
    split
    · have := List.length_pos.2 (splitChars_ne_nil sep cs)
      simp only [List.length_cons]; omega
    · rename_i hc
      have hcs : sep ∈ cs := by
        rcases List.mem_cons.1 h with e | m
        · exact absurd e.symm hc
        · exact m
      have := ih hcs
      split
      · rename_i heq; rw [heq] at this; simp at this
      · rename_i seg segs heq; rw [heq] at this; simpa using this

theorem afterLast_of_not_mem (sep : Char) (cs : List Char) (h : sep ∉ cs) :
    afterLast sep cs = cs := by
  have : cs.reverse.takeWhile (fun c => !decide (c = sep)) = cs.reverse := by
    rw [List.takeWhile_eq_self_iff]
    intro x hx
    have hx' : x ∈ cs := List.mem_reverse.1 hx
    simp only [Bool.not_eq_true', decide_eq_false_iff_not]
    intro e
    exact h (e ▸ hx')
  simp [afterLast, this]

theorem afterLast_cons_of_mem (sep c : Char) (cs : List Char) (h : sep ∈ cs) :
    afterLast sep (c :: cs) = afterLast sep cs := by
  simp only [afterLast, List.reverse_cons, List.takeWhile_append]
  have hlen : ¬ (cs.reverse.takeWhile (fun c => !decide (c = sep))).length = cs.reverse.length := by
    intro e
    have hall := (List.takeWhile_eq_self_iff).1 (List.IsPrefix.eq_of_length (List.takeWhile_prefix _) e)
    have := hall sep (List.mem_reverse.2 h)
    simp at this
  rw [List.length_reverse] at hlen
  simp [hlen]

theorem afterLast_sep_cons (sep : Char) (cs : List Char) (h : sep ∉ cs) :
    afterLast sep (sep :: cs) = cs := by
  have h1 := afterLast_of_not_mem sep cs h
  simp only [afterLast] at h1 ⊢
  have h2 : cs.reverse.takeWhile (fun c => !decide (c = sep)) = cs.reverse := by
    have := congrArg List.reverse h1
    simpa using this
  simp [List.reverse_cons, List.takeWhile_append, h2]

/-- What follows the last separator of a list of characters. -/
theorem afterLast_append_sep (sep : Char) (xs ys : List Char) (h : sep ∉ ys) :
    afterLast sep (xs ++ sep :: ys) = ys := by
  induction xs with
  | nil => exact afterLast_sep_cons sep ys h
  | cons x xs ih =>
    rw [List.cons_append, afterLast_cons_of_mem sep x _
      (List.mem_append_right _ (List.mem_cons_self _ _)), ih]

theorem getLastD_splitChars (sep : Char) (cs : List Char) :
    (splitChars sep cs).getLastD [] = afterLast sep cs := by
  induction cs with
  | nil => rfl
  | cons c cs ih =>
    by_cases hmem : sep ∈ cs
    · rw [afterLast_cons_of_mem sep c cs hmem, ← ih]
      have hlen := splitChars_length_of_mem sep cs hmem
      simp only [splitChars]
      split
      · rw [List.getLastD_cons]
      · cases hs : splitChars sep cs with
        | nil => simp [hs] at hlen
        | cons seg segs =>
          rw [hs] at hlen
          cases segs with
          | nil => simp at hlen
          | cons s2 segs => rfl
    · rw [splitChars_of_not_mem sep cs hmem] at ih
      simp only [splitChars, splitChars_of_not_mem sep cs hmem]
      split
      · rename_i hc
        subst hc
        rw [afterLast_sep_cons c cs hmem]
        simp [List.getLastD_cons]
      · rename_i hc
        have : sep ∉ c :: cs := by
          intro m
          rcases List.mem_cons.1 m with e | m
          · exact hc e.symm
          · exact hmem m
        rw [afterLast_of_not_mem sep _ this]
        simp [List.getLastD_cons]

theorem lastSegment_eq_afterLastDot (key : String) : lastSegment key = afterLastDot key := by
  simp only [lastSegment, afterLastDot, getLastD_splitChars]

theorem typeOrUnknown_eq_iff (ty : Option String) (s : String) (hs : s ≠ "UNKNOWN")
    (he : s ≠ "") : typeOrUnknown ty = s ↔ ty = some s := by
  cases ty with
  | none => simp [typeOrUnknown, Ne.symm hs]
  | some v =>
    simp only [typeOrUnknown, Option.some.injEq]
    split
    · rename_i hv
      subst hv
      constructor
      · intro e; exact absurd e.symm hs
      · intro e; exact absurd e.symm he
    · rfl

theorem icon_eq_specTag (ty : Option String) : icon (typeOrUnknown ty) = specTag ty := by
  simp only [icon, specTag, typeOrUnknown_eq_iff ty "VIEW" (by decide) (by decide),
    typeOrUnknown_eq_iff ty "TABLE" (by decide) (by decide)]

/-- The value of `prefix` at a node whose ancestors below the root have the given flags. -/
theorem join_extension_append (anc : List Bool) (isLast : Bool) :
    String.join ((anc ++ [isLast]).map extension)
      = String.join (anc.map extension) ++ extension isLast := by
  rw [List.map_append, join_append, List.map_cons, List.map_nil, join_cons, join_nil,
    String.append_empty]

theorem specLine_eq (anc : List Bool) (isLast : Bool) (ty : Option String) (key : String) :
    specLine { ancestorsLast := anc, isLast := isLast, kind := ty, name := key }
      = String.join (anc.map extension) ++ connector isLast ++ icon (typeOrUnknown ty) ++ " "
        ++ lastSegment key ++ "\n" := by
  rw [icon_eq_specTag, lastSegment_eq_afterLastDot]
  rfl

mutual
theorem renderLineageAsText_eq_visit :
    ∀ (t : Tree) (indent : Nat) (anc : List Bool) (isLast : Bool),
      renderLineageAsText t (indent + 1) (String.join (anc.map extension)) isLast
        = String.join ((visitTree t anc isLast).map specLine)
  | .mk entries, indent, anc, isLast => by
    simp only [renderLineageAsText, visitTree]
    rw [renderEntries_eq_visit entries indent anc isLast "", String.empty_append]
theorem renderEntries_eq_visit :
    ∀ (es : List (String × LineageNode)) (indent : Nat) (anc : List Bool) (isLast : Bool)
      (text : String),
      renderEntries es (indent + 1) (String.join (anc.map extension)) isLast text
        = text ++ String.join ((visitEntries es anc isLast).map specLine)
  | [], indent, anc, isLast, text => by
    simp [renderEntries, visitEntries, join_nil]
  | (key, .mk ty srcs) :: rest, indent, anc, isLast, text => by
    have hloop : typeOrUnknown ty ≠ "LOOP" ↔ ty ≠ some "LOOP" :=
      not_congr (typeOrUnknown_eq_iff ty "LOOP" (by decide) (by decide))
    simp only [renderEntries, visitEntries, Nat.add_one_ne_zero, if_false, hloop, List.map_cons,
      List.map_append, join_cons, join_append, specLine_eq]
    split
    · rw [renderEntries_eq_visit rest indent anc isLast, ← join_extension_append,
        renderForEach_eq_visit srcs (indent + 1) (anc ++ [isLast])]
      simp only [String.append_assoc]
    · rw [renderEntries_eq_visit rest indent anc isLast]
      simp only [List.map_nil, join_nil, String.empty_append, String.append_assoc]
theorem renderForEach_eq_visit :
    ∀ (o : Option (List Tree)) (indent : Nat) (anc : List Bool) (text : String),
      renderForEach o (indent + 1) (String.join (anc.map extension)) text
        = text ++ String.join ((visitOpt o anc).map specLine)
  | none, indent, anc, text => by
    simp [renderForEach, visitOpt, join_nil]
  | some l, indent, anc, text => by
    simp only [renderForEach, visitOpt]
    exact renderSources_eq_visit l 0 l.length indent anc text (Nat.zero_add _)
theorem renderSources_eq_visit :
    ∀ (l : List Tree) (i len indent : Nat) (anc : List Bool) (text : String),
      i + l.length = len →
      renderSources l i len (indent + 1) (String.join (anc.map extension)) text
        = text ++ String.join ((visitSources l anc).map specLine)
  | [], i, len, indent, anc, text, _ => by
    simp [renderSources, visitSources, join_nil]
  | child :: more, i, len, indent, anc, text, h => by
    have hlast : decide (i = len - 1) = more.isEmpty := by
      simp only [List.length_cons] at h
      cases more with
      | nil => simp at h ⊢; omega
      | cons a as => simp at h ⊢; omega
    simp only [renderSources, visitSources, List.map_append, join_append]
    rw [renderSources_eq_visit more (i + 1) len indent anc _
        (by simp only [List.length_cons] at h; omega),
      renderLineageAsText_eq_visit child indent anc, hlast, String.append_assoc]
end

/-- C7: when the root is expanded (its kind is not `TABLE`, and not `VIEW` with empty
sources) `renderLineageAsText` emits, after the header and the `DEPENDENCIES:` label, one
line per visited node below the root, in depth-first pre-order with the order of the sources
kept; the line of a node is four spaces or `│` and three spaces for each ancestor at depths
`1..d-1`, outermost first, according to whether that ancestor was the last sibling, then
`└── ` or `├── `, then the tag `[VIEW]`, `[TABLE]` or `[?]`, a space, the part of the
qualified name after its last `.`, and a line break. -/
theorem C7_text_lines (key : String) (ty : Option String) (srcs : Option (List Tree))
    (hTable : ty ≠ some "TABLE")
    (hView : ¬ (ty = some "VIEW" ∧ (sourcesOrEmpty srcs).length = 0)) :
    renderLineageAsText (Tree.single key (.mk ty srcs)) 0 "" true
      = analyzingHeader key ++ "DEPENDENCIES:\n\n"
        ++ String.join ((visitOpt srcs []).map specLine) := by
  have h₁ : ¬ typeOrUnknown ty = "TABLE" :=
    fun e => hTable ((typeOrUnknown_eq_iff ty "TABLE" (by decide) (by decide)).1 e)
  have h₂ : ¬ (typeOrUnknown ty = "VIEW" ∧ (sourcesOrEmpty srcs).length = 0) :=
    fun e => hView ⟨(typeOrUnknown_eq_iff ty "VIEW" (by decide) (by decide)).1 e.1, e.2⟩
  have h := renderForEach_eq_visit srcs 0 [] ("" ++ analyzingHeader key ++ "DEPENDENCIES:\n\n")
  simp only [List.map_nil, join_nil, Nat.zero_add, String.empty_append] at h
  simp only [Tree.single, renderLineageAsText, renderEntries, if_true, h₁, h₂, if_false,
    String.empty_append, h]

/-- C7 at a view over two sources, the first with a source of its own. -/
theorem C7_text_lines_witness :
    renderLineageAsText nestedViewTree 0 "" true
        = analyzingHeader "DB.S.TOP" ++ "DEPENDENCIES:\n\n"
          ++ String.join ((visitOpt (some [
              Tree.single "DB.S.MID" (.mk (some "VIEW") (some [
                Tree.single "DB.S.BASE" (.mk (some "TABLE") none)])),
              Tree.single "DB.S.OTHER" (.mk none none)]) []).map specLine)
      ∧ (visitOpt (some [
              Tree.single "DB.S.MID" (.mk (some "VIEW") (some [
                Tree.single "DB.S.BASE" (.mk (some "TABLE") none)])),
              Tree.single "DB.S.OTHER" (.mk none none)]) []).map specLine
        = ["├── [VIEW] MID\n", "│   └── [TABLE] BASE\n", "└── [?] OTHER\n"] :=
  ⟨C7_text_lines "DB.S.TOP" (some "VIEW") _ (by decide) (by decide), by decide⟩

/-! ## C12: the empty result -/

/-- C12: on a result without a root entry neither exporter fails: `renderLineageAsText`
returns the empty string and `convertLineageToCSV` returns the header line
`Analyzed Object,Table` ended by a line break, with no data row. -/
theorem C12_empty_result :
    renderLineageAsText (.mk []) 0 "" true = ""
      ∧ convertLineageToCSV (.mk []) = "Analyzed Object,Table\n"
      ∧ csvDataRows (.mk []) = [] := by
  refine ⟨rfl, ?_, rfl⟩
  decide

/-! ## C14: the CSV text is rectangular -/

theorem one_le_maxDepthOf (paths : List (List PathNode)) : 1 ≤ maxDepthOf paths := by
  simp only [maxDepthOf, List.foldl_append, List.foldl_cons, List.foldl_nil]
  exact Nat.le_max_right _ _

theorem length_le_maxDepthOf (paths : List (List PathNode)) :
    ∀ p ∈ paths, p.length ≤ maxDepthOf paths := by
  have key : ∀ (l : List Nat) (a : Nat), ∀ x ∈ l, x ≤ l.foldl max a := by
    intro l
    induction l with
    | nil => intro a x hx; simp at hx
    | cons b l ih =>
      intro a x hx
      rcases List.mem_cons.1 hx with rfl | hx
      · exact Nat.le_trans (Nat.le_max_right a x) (foldl_max_ge l _)
      · exact ih _ x hx
  intro p hp
  simp only [maxDepthOf]
  exact key _ 0 _ (List.mem_append_left _ (List.mem_map_of_mem _ hp))

theorem specHeaderFields_length (maxDepth : Nat) (h : 1 ≤ maxDepth) :
    (specHeaderFields maxDepth).length = maxDepth + 1 := by
  simp only [specHeaderFields, List.length_append, List.length_map, List.length_range',
    List.length_singleton]
  omega

theorem csvRow_length (maxDepth : Nat) (path : List PathNode) (first : PathNode)
    (h : 1 ≤ maxDepth) : (csvRow maxDepth path first).length = maxDepth + 1 := by
  simp only [csvRow_eq, List.length_append, List.length_map, List.length_range',
    List.length_singleton]
  omega

theorem csvDataRows_row_length (t : Tree) :
    ∀ row ∈ csvDataRows t, row.length = csvMaxDepth t + 1 := by
  intro row hrow
  simp only [csvDataRows, List.mem_filterMap] at hrow
  obtain ⟨p, -, hp⟩ := hrow
  cases p with
  | nil => simp [csvRowOf] at hp
  | cons first more =>
    rw [csvRowOf_cons, Option.some.injEq] at hp
    subst hp
    exact csvRow_length _ _ _ (one_le_maxDepthOf _)

/-- In the row of a path as long as `maxDepth` the last `Level` field and the `Table` field
are both the name of the last node. -/
theorem csvRow_last_twice (maxDepth : Nat) (first : PathNode) (more : List PathNode)
    (hlen : (first :: more).length = maxDepth) (h2 : 2 ≤ maxDepth) :
    (csvRow maxDepth (first :: more) first)[maxDepth - 1]?
        = some (specLastName (first :: more))
      ∧ (csvRow maxDepth (first :: more) first)[maxDepth]?
        = some (specLastName (first :: more)) := by
  rw [csvRow_eq_spec, specRowFields]
  have hl1 : ([specNameAt (first :: more) 0]
      ++ (List.range' 1 (maxDepth - 1)).map (fun i => specNameAt (first :: more) i)).length
        = maxDepth := by
    simp only [List.length_append, List.length_singleton, List.length_map, List.length_range']
    omega
  constructor
  · rw [List.getElem?_append_left (by rw [hl1]; omega),
      List.getElem?_append_right (by simp only [List.length_singleton]; omega)]
    simp only [List.length_singleton, List.getElem?_map]
    have hidx : maxDepth - 1 - 1 < maxDepth - 1 := by omega
    rw [List.getElem?_eq_getElem (by simpa using hidx)]
    simp only [List.getElem_range', Option.map_some', Option.some.injEq]
    have hpos : 1 + 1 * (maxDepth - 1 - 1) = (first :: more).length - 1 := by omega
    rw [hpos, specNameAt, specLastName, List.getLast?_eq_getElem?]
  · rw [List.getElem?_append_right (by rw [hl1]), hl1]
    simp

/-- C14: the CSV text is rectangular. With `maxDepth` the greatest length of an extracted
path, at least 1, the header line has exactly `maxDepth + 1` columns and every data row is
built from exactly `maxDepth + 1` fields, whatever the length of its path; and the row of a
path of length `maxDepth >= 2` carries the name of its last node twice, in the last `Level`
column (index `maxDepth - 1`) and again in the `Table` column (index `maxDepth`). -/
theorem C14_csv_rectangular (t : Tree) :
    1 ≤ csvMaxDepth t
      ∧ csvMaxDepth t = specMaxDepth (extractPaths t [] [])
      ∧ csvHeader (csvMaxDepth t) = ",".intercalate (specHeaderFields (csvMaxDepth t)) ++ "\n"
      ∧ (specHeaderFields (csvMaxDepth t)).length = csvMaxDepth t + 1
      ∧ (∀ row ∈ csvDataRows t, row.length = csvMaxDepth t + 1)
      ∧ (∀ path ∈ extractPaths t [] [], path.length = csvMaxDepth t → 2 ≤ csvMaxDepth t →
          ∃ row, csvRowOf (csvMaxDepth t) path = some row
            ∧ row[csvMaxDepth t - 1]? = some (specLastName path)
            ∧ row[csvMaxDepth t]? = some (specLastName path)) := by
  have hne : ∀ p ∈ extractPaths t [] [], p ≠ [] := by
    rw [extractPaths_nil]; exact leafPaths_ne_nil t
  refine ⟨one_le_maxDepthOf _, maxDepthOf_eq_specMaxDepth _ hne, csvHeader_eq_spec _,
    specHeaderFields_length _ (one_le_maxDepthOf _), csvDataRows_row_length t, ?_⟩
  intro path hpath hlen h2
  cases path with
  | nil => exact absurd rfl (hne [] hpath)
  | cons first more =>
    exact ⟨_, csvRowOf_cons _ first more, csvRow_last_twice _ first more hlen h2⟩

/-- C14 at the first example of the specification: `maxDepth` is 2, the header and both
rows have three fields, and the row of the first path ends with the leaf name twice. -/
theorem C14_csv_rectangular_witness :
    csvMaxDepth ordersTree = 2
      ∧ ∃ row, csvRowOf (csvMaxDepth ordersTree)
            [{ name := "DB.S.ORDERS", type := some "VIEW" },
             { name := "DB.S.RAW_ORDERS", type := some "TABLE" }] = some row
          ∧ row[csvMaxDepth ordersTree - 1]? = some "DB.S.RAW_ORDERS"
          ∧ row[csvMaxDepth ordersTree]? = some "DB.S.RAW_ORDERS" :=
  ⟨by decide,
    (C14_csv_rectangular ordersTree).2.2.2.2.2
      [{ name := "DB.S.ORDERS", type := some "VIEW" },
       { name := "DB.S.RAW_ORDERS", type := some "TABLE" }]
      (by decide) (by decide) (by decide)⟩

/-! ## C11: missing fields are normalised -/

theorem typeOrUnknown_normalizes (ty ty' : Option String) (h : NormalizesType ty ty') :
    typeOrUnknown ty' = typeOrUnknown ty := by
  rcases h with rfl | ⟨rfl, rfl⟩
  · rfl
  · decide

mutual
theorem renderLineageAsText_normalizes :
    ∀ (t t' : Tree), Normalizes t t' → ∀ (indent : Nat) (pfx : String) (isLast : Bool),
      renderLineageAsText t' indent pfx isLast = renderLineageAsText t indent pfx isLast
  | .mk es, .mk es', h, indent, pfx, isLast => by
    simp only [Normalizes] at h
    simp only [renderLineageAsText]
    exact renderEntries_normalizes es es' h indent pfx isLast ""
theorem renderEntries_normalizes :
    ∀ (es es' : List (String × LineageNode)), NormalizesEntries es es' →
      ∀ (indent : Nat) (pfx : String) (isLast : Bool) (text : String),
        renderEntries es' indent pfx isLast text = renderEntries es indent pfx isLast text
  | [], [], _, _, _, _, _ => rfl
  | [], _ :: _, h, _, _, _, _ => by simp [NormalizesEntries] at h
  | _ :: _, [], h, _, _, _, _ => by simp [NormalizesEntries] at h
  | (key, .mk ty srcs) :: rest, (key', .mk ty' srcs') :: rest', h, indent, pfx, isLast, text => by
    simp only [NormalizesEntries] at h
    obtain ⟨rfl, hty, hsrcs, hrest⟩ := h
    have h₁ := typeOrUnknown_normalizes ty ty' hty
    have h₂ := (renderForEach_normalizes srcs srcs' hsrcs).1
    have h₃ := (renderForEach_normalizes srcs srcs' hsrcs).2
    have h₄ := renderEntries_normalizes rest rest' hrest
    simp only [renderEntries, h₁, h₂, h₃, h₄]
theorem renderForEach_normalizes :
    ∀ (o o' : Option (List Tree)), NormalizesOpt o o' →
      (sourcesOrEmpty o').length = (sourcesOrEmpty o).length
        ∧ ∀ (indent : Nat) (pfx : String) (text : String),
          renderForEach o' indent pfx text = renderForEach o indent pfx text
  | none, none, _ => ⟨rfl, fun _ _ _ => rfl⟩
  | none, some l', h => by
    simp only [NormalizesOpt] at h
    subst h
    exact ⟨rfl, fun _ _ _ => rfl⟩
  | some _, none, h => by simp [NormalizesOpt] at h
  | some l, some l', h => by
    simp only [NormalizesOpt] at h
    have hl := renderSources_normalizes l l' h
    refine ⟨hl.1, fun indent pfx text => ?_⟩
    simp only [renderForEach, hl.1, hl.2]
theorem renderSources_normalizes :
    ∀ (l l' : List Tree), NormalizesSources l l' →
      l'.length = l.length
        ∧ ∀ (i len indent : Nat) (pfx : String) (text : String),
          renderSources l' i len indent pfx text = renderSources l i len indent pfx text
  | [], [], _ => ⟨rfl, fun _ _ _ _ _ => rfl⟩
  | [], _ :: _, h => by simp [NormalizesSources] at h
  | _ :: _, [], h => by simp [NormalizesSources] at h
  | s :: more, s' :: more', h => by
    simp only [NormalizesSources] at h
    have hs := renderLineageAsText_normalizes s s' h.1
    have hm := renderSources_normalizes more more' h.2
    refine ⟨by simp [hm.1], fun i len indent pfx text => ?_⟩
    simp only [renderSources, hs, hm.2]
end

theorem isLeaf_normalizes (ty ty' : Option String) (srcs srcs' : Option (List Tree))
    (hty : NormalizesType ty ty')
    (hlen : (sourcesOrEmpty srcs').length = (sourcesOrEmpty srcs).length) :
    isLeaf ty' srcs' = isLeaf ty srcs := by
  simp only [isLeaf, hlen]
  rcases hty with rfl | ⟨rfl, rfl⟩
  · rfl
  · simp

theorem pathNames_append (a b : List (List PathNode)) :
    pathNames (a ++ b) = pathNames a ++ pathNames b := by
  simp [pathNames]

theorem pathNames_map_cons (n n' : PathNode) (hn : n'.name = n.name)
    (a b : List (List PathNode)) (h : pathNames a = pathNames b) :
    pathNames (a.map (fun p => n' :: p)) = pathNames (b.map (fun p => n :: p)) := by
  simp only [pathNames, List.map_map] at h ⊢
  have : ∀ l : List (List PathNode),
      l.map ((fun p => p.map PathNode.name) ∘ fun p => n' :: p)
        = (l.map (fun p => p.map PathNode.name)).map (fun q => n.name :: q) := by
    intro l; simp [Function.comp_def, hn]
  have h2 : ∀ l : List (List PathNode),
      l.map ((fun p => p.map PathNode.name) ∘ fun p => n :: p)
        = (l.map (fun p => p.map PathNode.name)).map (fun q => n.name :: q) := by
    intro l; simp [Function.comp_def]
  rw [this, h2, h]

mutual
theorem leafPaths_normalizes :
    ∀ (t t' : Tree), Normalizes t t' → pathNames (leafPaths t') = pathNames (leafPaths t)
  | .mk es, .mk es', h => by
    simp only [Normalizes] at h
    simp only [leafPaths]
    exact leafPathsEntries_normalizes es es' h
theorem leafPathsEntries_normalizes :
    ∀ (es es' : List (String × LineageNode)), NormalizesEntries es es' →
      pathNames (leafPathsEntries es') = pathNames (leafPathsEntries es)
  | [], [], _ => rfl
  | [], _ :: _, h => by simp [NormalizesEntries] at h
  | _ :: _, [], h => by simp [NormalizesEntries] at h
  | (key, .mk ty srcs) :: rest, (key', .mk ty' srcs') :: rest', h => by
    simp only [NormalizesEntries] at h
    obtain ⟨rfl, hty, hsrcs, hrest⟩ := h
    have hleaf := isLeaf_normalizes ty ty' srcs srcs' hty
      (renderForEach_normalizes srcs srcs' hsrcs).1
    simp only [leafPathsEntries, hleaf, pathNames_append,
      leafPathsEntries_normalizes rest rest' hrest]
    congr 1
    split
    · rfl
    · exact pathNames_map_cons { name := key', type := ty } { name := key', type := ty' } rfl _ _
        (leafPathsOpt_normalizes srcs srcs' hsrcs)
theorem leafPathsOpt_normalizes :
    ∀ (o o' : Option (List Tree)), NormalizesOpt o o' →
      pathNames (leafPathsOpt o') = pathNames (leafPathsOpt o)
  | none, none, _ => rfl
  | none, some l', h => by
    simp only [NormalizesOpt] at h
    subst h
    rfl
  | some _, none, h => by simp [NormalizesOpt] at h
  | some l, some l', h => by
    simp only [NormalizesOpt] at h
    simp only [leafPathsOpt]
    exact leafPathsSources_normalizes l l' h
theorem leafPathsSources_normalizes :
    ∀ (l l' : List Tree), NormalizesSources l l' →
      pathNames (leafPathsSources l') = pathNames (leafPathsSources l)
  | [], [], _ => rfl
  | [], _ :: _, h => by simp [NormalizesSources] at h
  | _ :: _, [], h => by simp [NormalizesSources] at h
  | s :: more, s' :: more', h => by
    simp only [NormalizesSources] at h
    simp only [leafPathsSources, pathNames_append, leafPaths_normalizes s s' h.1,
      leafPathsSources_normalizes more more' h.2]
end

theorem getLastD_map_name (p : List PathNode) (d : PathNode) :
    (p.getLastD d).name = ((p.map PathNode.name).getLastD d.name) := by
  induction p generalizing d with
  | nil => rfl
  | cons a as ih => simp only [List.map_cons, List.getLastD_cons, ih]

theorem getD_map_name (p : List PathNode) (i : Nat) (d : PathNode) :
    (p.getD i d).name = ((p.map PathNode.name).getD i d.name) := by
  induction p generalizing i with
  | nil => rfl
  | cons a as ih =>
    cases i with
    | zero => rfl
    | succ j => simp [ih j]

/-- The row of a path depends on the names along the path only. -/
theorem csvRowOf_congr (maxDepth : Nat) (p p' : List PathNode)
    (h : p'.map PathNode.name = p.map PathNode.name) :
    csvRowOf maxDepth p' = csvRowOf maxDepth p := by
  cases p with
  | nil =>
    cases p' with
    | nil => rfl
    | cons a as => simp at h
  | cons first more =>
    cases p' with
    | nil => simp at h
    | cons first' more' =>
      have hlen : (first' :: more').length = (first :: more).length := by
        have := congrArg List.length h
        simpa using this
      have hfirst : first'.name = first.name := by
        simp only [List.map_cons, List.cons.injEq] at h
        exact h.1
      simp only [csvRowOf_cons, csvRow_eq, getD_map_name, getLastD_map_name, h, hlen, hfirst]

/-- The CSV text depends on the names along the extracted paths only. -/
theorem convertLineageToCSV_congr (t t' : Tree)
    (h : pathNames (extractPaths t' [] []) = pathNames (extractPaths t [] [])) :
    convertLineageToCSV t' = convertLineageToCSV t := by
  have hmax : csvMaxDepth t' = csvMaxDepth t := by
    have hl : (extractPaths t' [] []).map List.length = (extractPaths t [] []).map List.length := by
      have := congrArg (fun l => l.map List.length) h
      simpa [pathNames, List.map_map, Function.comp_def] using this
    simp only [csvMaxDepth, maxDepthOf, hl]
  have hrows : csvDataRows t' = csvDataRows t := by
    simp only [csvDataRows, hmax]
    generalize extractPaths t' [] [] = ps' at h
    generalize extractPaths t [] [] = ps at h
    induction ps generalizing ps' with
    | nil =>
      cases ps' with
      | nil => rfl
      | cons a as => simp [pathNames] at h
    | cons p ps ih =>
      cases ps' with
      | nil => simp [pathNames] at h
      | cons p' ps' =>
        simp only [pathNames, List.map_cons, List.cons.injEq] at h
        simp only [List.filterMap_cons, csvRowOf_congr _ p p' h.1, ih ps' h.2]
  rw [convertLineageToCSV_eq, convertLineageToCSV_eq, hmax, hrows]

theorem typeGetD_normalizes (ty : Option String) : NormalizesType ty (some (ty.getD "UNKNOWN")) := by
  cases ty with
  | none => exact Or.inr ⟨rfl, rfl⟩
  | some s => exact Or.inl rfl

mutual
theorem normalizes_normalize : ∀ t : Tree, Normalizes t (normalize t)
  | .mk es => by
    simp only [normalize, Normalizes]
    exact normalizesEntries_normalize es
theorem normalizesEntries_normalize :
    ∀ es : List (String × LineageNode), NormalizesEntries es (normalizeEntries es)
  | [] => by simp [normalizeEntries, NormalizesEntries]
  | (key, .mk ty srcs) :: rest => by
    simp only [normalizeEntries, NormalizesEntries, true_and]
    exact ⟨typeGetD_normalizes ty, normalizesOpt_normalize srcs, normalizesEntries_normalize rest⟩
theorem normalizesOpt_normalize :
    ∀ o : Option (List Tree), NormalizesOpt o (some (normalizeOpt o))
  | none => by simp [normalizeOpt, NormalizesOpt]
  | some l => by
    simp only [normalizeOpt, NormalizesOpt]
    exact normalizesSources_normalize l
theorem normalizesSources_normalize :
    ∀ l : List Tree, NormalizesSources l (normalizeSources l)
  | [] => by simp [normalizeSources, NormalizesSources]
  | s :: more => by
    simp only [normalizeSources, NormalizesSources]
    exact ⟨normalizes_normalize s, normalizesSources_normalize more⟩
end

/-- C11: missing fields are normalised, not rejected: replacing, at any of the nodes of a
tree, a missing kind by `UNKNOWN` and a missing `sources` by the empty sequence changes
neither the string returned by `renderLineageAsText` nor the one returned by
`convertLineageToCSV`; this holds in particular for the tree normalised at every node. -/
theorem C11_normalization_invisible (t t' : Tree) (h : Normalizes t t') :
    renderLineageAsText t' 0 "" true = renderLineageAsText t 0 "" true
      ∧ convertLineageToCSV t' = convertLineageToCSV t
      ∧ renderLineageAsText (normalize t) 0 "" true = renderLineageAsText t 0 "" true
      ∧ convertLineageToCSV (normalize t) = convertLineageToCSV t := by
  have hcsv : ∀ u u' : Tree, Normalizes u u' → convertLineageToCSV u' = convertLineageToCSV u := by
    intro u u' hu
    apply convertLineageToCSV_congr
    rw [extractPaths_nil, extractPaths_nil]
    exact leafPaths_normalizes u u' hu
  exact ⟨renderLineageAsText_normalizes t t' h 0 "" true, hcsv t t' h,
    renderLineageAsText_normalizes t _ (normalizes_normalize t) 0 "" true,
    hcsv t _ (normalizes_normalize t)⟩

/-- C11 at a view without kind over a source without any field, normalised at every node. -/
theorem C11_normalization_invisible_witness :
    normalize bareTree
        = Tree.single "DB.S.V" (.mk (some "UNKNOWN") (some [
            Tree.single "DB.S.W" (.mk (some "UNKNOWN") (some []))]))
      ∧ renderLineageAsText (normalize bareTree) 0 "" true
        = renderLineageAsText bareTree 0 "" true
      ∧ convertLineageToCSV (normalize bareTree) = convertLineageToCSV bareTree :=
  ⟨rfl, (C11_normalization_invisible bareTree (normalize bareTree)
      (normalizes_normalize bareTree)).1,
    (C11_normalization_invisible bareTree (normalize bareTree)
      (normalizes_normalize bareTree)).2.1⟩

/-! ## C13: toggling in the interactive view -/

theorem getElem?_set_of_some {α : Type} (l : List α) (i : Nat) (a b : α) (h : l[i]? = some a) :
    (l.set i b)[i]? = some b := by
  have hi : i < l.length := by
    by_contra hn
    rw [List.getElem?_eq_none (Nat.le_of_not_lt hn)] at h
    exact Option.noConfusion h
  exact List.getElem?_set_self hi

theorem instanceAt_set_ne (i j : Nat) (hij : i ≠ j) (qrest : List Nat) (insts : List ViewNode)
    (c : ViewNode) :
    instanceAt (j :: qrest) (insts.set i c) = instanceAt (j :: qrest) insts := by
  cases qrest with
  | nil => simp only [instanceAt, List.getElem?_set_ne hij]
  | cons k ks => simp only [instanceAt, List.getElem?_set_ne hij]

theorem toggleNode_isExpanded (c c' : ViewNode) (h : toggleNode c = some c') :
    c'.isExpanded = !c.isExpanded := by
  obtain ⟨k, v, e, cs⟩ := c
  simp only [toggleNode] at h
  split at h
  · split at h
    · rename_i he
      simp only [Option.some.injEq] at h
      subst h; subst he; rfl
    · rename_i he
      simp only [Option.map_eq_some'] at h
      obtain ⟨ch, -, rfl⟩ := h
      simp only [Bool.not_eq_true] at he
      subst he; rfl
  · exact Option.noConfusion h

theorem setChildren_isExpanded (c : ViewNode) (cs : List ViewNode) :
    (c.setChildren cs).isExpanded = c.isExpanded := by
  cases c; rfl

theorem setChildren_children (c : ViewNode) (cs : List ViewNode) :
    (c.setChildren cs).children = cs := by
  cases c; rfl

/-- A click at a position leaves every position that is not at or below it as it was: the
state there is the same, and beside the path to the click the whole instance is the same;
at the position itself the state is inverted. -/
theorem toggleIn_frame : ∀ (p q : List Nat) (v v' : List ViewNode),
    toggleIn p v = some v' →
      expandedAt p v' = (expandedAt p v).map (fun e => !e)
        ∧ (¬ p <+: q →
            expandedAt q v' = expandedAt q v
              ∧ (¬ q <+: p → instanceAt q v' = instanceAt q v))
  | [], _, _, _, h => by simp [toggleIn] at h
  | [i], q, v, v', h => by
    simp only [toggleIn, Option.bind_eq_some, Option.map_eq_some'] at h
    obtain ⟨c, hc, c', hc', rfl⟩ := h
    refine ⟨?_, fun hq => ?_⟩
    · simp only [expandedAt, instanceAt, getElem?_set_of_some v i c c' hc, hc, Option.map_some',
        toggleNode_isExpanded c c' hc']
    · cases q with
      | nil => exact ⟨rfl, fun _ => rfl⟩
      | cons j qrest =>
        have hij : i ≠ j := by
          intro e
          subst e
          exact hq (List.cons_prefix_cons.2 ⟨rfl, List.nil_prefix⟩)
        have := instanceAt_set_ne i j hij qrest v c'
        exact ⟨by simp only [expandedAt, this], fun _ => this⟩
  | i :: j :: rest, q, v, v', h => by
    simp only [toggleIn, Option.bind_eq_some, Option.map_eq_some'] at h
    obtain ⟨c, hc, cs, hcs, rfl⟩ := h
    have ih := toggleIn_frame (j :: rest) 
    refine ⟨?_, fun hq => ?_⟩
    · have := (ih [] c.children cs hcs).1
      simp only [expandedAt] at this
      simp only [expandedAt, instanceAt, getElem?_set_of_some v i c _ hc, hc, Option.some_bind,
        setChildren_children, this]
    · cases q with
      | nil => exact ⟨rfl, fun _ => rfl⟩
      | cons k qrest =>
        by_cases hik : i = k
        · subst hik
          cases qrest with
          | nil =>
            refine ⟨?_, fun hn => absurd (List.cons_prefix_cons.2 ⟨rfl, List.nil_prefix⟩) hn⟩
            simp only [expandedAt, instanceAt, getElem?_set_of_some v i c _ hc, hc,
              Option.map_some', setChildren_isExpanded]
          | cons k2 qr2 =>
            have hq' : ¬ (j :: rest) <+: (k2 :: qr2) := fun hp =>
              hq (List.cons_prefix_cons.2 ⟨rfl, hp⟩)
            have := (ih (k2 :: qr2) c.children cs hcs).2 hq'
            simp only [expandedAt] at this
            refine ⟨?_, fun hn => ?_⟩
            · simp only [expandedAt, instanceAt, getElem?_set_of_some v i c _ hc, hc,
                Option.some_bind, setChildren_children, this.1]
            · have hn' : ¬ (k2 :: qr2) <+: (j :: rest) := fun hp =>
                hn (List.cons_prefix_cons.2 ⟨rfl, hp⟩)
              simp only [instanceAt, getElem?_set_of_some v i c _ hc, hc,
                Option.some_bind, setChildren_children, this.2 hn']
        · have := instanceAt_set_ne i k hik qrest v (c.setChildren cs)
          exact ⟨by simp only [expandedAt, this], fun _ => this⟩

theorem instanceAt_nil (q : List Nat) : instanceAt q [] = none := by
  match q with
  | [] => rfl
  | [_] => rfl
  | _ :: _ :: _ => rfl

theorem instanceAt_cons_succ (i : Nat) (rest : List Nat) (c : ViewNode) (cs : List ViewNode) :
    instanceAt ((i + 1) :: rest) (c :: cs) = instanceAt (i :: rest) cs := by
  cases rest with
  | nil => simp [instanceAt]
  | cons j r => simp [instanceAt]

theorem allExpanded_nil : AllExpanded [] := by
  intro q inst h
  rw [instanceAt_nil] at h
  exact Option.noConfusion h

theorem allExpanded_cons (c : ViewNode) (cs : List ViewNode) (hc : c.isExpanded = true)
    (hch : AllExpanded c.children) (hcs : AllExpanded cs) : AllExpanded (c :: cs) := by
  intro q inst h
  match q, h with
  | [], h => exact Option.noConfusion h
  | [0], h =>
    simp only [instanceAt, List.getElem?_cons_zero, Option.some.injEq] at h
    subst h
    exact hc
  | 0 :: j :: rest, h =>
    simp only [instanceAt, List.getElem?_cons_zero, Option.some_bind] at h
    exact hch _ _ h
  | (i + 1) :: rest, h =>
    rw [instanceAt_cons_succ] at h
    exact hcs _ _ h

mutual
theorem mountNode_allExpanded : ∀ (key : String) (value : LineageNode) (inst : ViewNode),
    mountNode key value = some inst → inst.isExpanded = true ∧ AllExpanded inst.children
  | key, .mk ty srcs, inst, h => by
    simp only [mountNode] at h
    split at h
    · simp only [Option.map_eq_some'] at h
      obtain ⟨cs, hcs, rfl⟩ := h
      exact ⟨rfl, mountForEach_allExpanded srcs cs hcs⟩
    · simp only [Option.some.injEq] at h
      subst h
      exact ⟨rfl, allExpanded_nil⟩
theorem mountForEach_allExpanded : ∀ (o : Option (List Tree)) (cs : List ViewNode),
    mountForEach o = some cs → AllExpanded cs
  | none, cs, h => by
    simp only [mountForEach, Option.some.injEq] at h
    subst h
    exact allExpanded_nil
  | some l, cs, h => by
    simp only [mountForEach] at h
    exact mountSources_allExpanded l cs h
theorem mountSources_allExpanded : ∀ (l : List Tree) (cs : List ViewNode),
    mountSources l = some cs → AllExpanded cs
  | [], cs, h => by
    simp only [mountSources, Option.some.injEq] at h
    subst h
    exact allExpanded_nil
  | child :: more, cs, h => by
    simp only [mountSources] at h
    split at h
    · rename_i c cs' hc hcs'
      simp only [Option.some.injEq] at h
      subst h
      have h₁ := mountChild_allExpanded child c hc
      exact allExpanded_cons c cs' h₁.1 h₁.2 (mountSources_allExpanded more cs' hcs')
    · exact Option.noConfusion h
theorem mountChild_allExpanded : ∀ (child : Tree) (inst : ViewNode),
    mountChild child = some inst → inst.isExpanded = true ∧ AllExpanded inst.children
  | .mk [], inst, h => by simp [mountChild] at h
  | .mk ((childKey, value) :: _), inst, h => by
    simp only [mountChild] at h
    exact mountNode_allExpanded childKey value inst h
end

theorem mountView_allExpanded (value : LineageNode) (view : List ViewNode)
    (h : mountView value = some view) : AllExpanded view := by
  simp only [mountView] at h
  split at h
  · simp only [Option.some.injEq] at h
    subst h
    exact allExpanded_nil
  · split at h
    · exact mountForEach_allExpanded _ _ h
    · simp only [Option.some.injEq] at h
      subst h
      exact allExpanded_nil

/-- The instance at a position below another one is found among the instances mounted
under that one. -/
theorem instanceAt_append : ∀ (p r : List Nat) (v : List ViewNode), p ≠ [] → r ≠ [] →
    instanceAt (p ++ r) v = (instanceAt p v).bind (fun c => instanceAt r c.children)
  | [], _, _, hp, _ => absurd rfl hp
  | [i], r, v, _, hr => by
    cases r with
    | nil => exact absurd rfl hr
    | cons j rest => rfl
  | i :: j :: rest, r, v, _, hr => by
    simp only [List.cons_append, instanceAt]
    cases v[i]? with
    | none => rfl
    | some c =>
      simp only [Option.some_bind]
      exact instanceAt_append (j :: rest) r c.children (List.cons_ne_nil _ _) hr

/-- A click at a position runs the handler of the instance mounted there and puts its
result in its place. -/
theorem toggleIn_instance : ∀ (p : List Nat) (v v' : List ViewNode), toggleIn p v = some v' →
    ∃ c c', instanceAt p v = some c ∧ toggleNode c = some c' ∧ instanceAt p v' = some c'
  | [], _, _, h => by simp [toggleIn] at h
  | [i], v, v', h => by
    simp only [toggleIn, Option.bind_eq_some, Option.map_eq_some'] at h
    obtain ⟨c, hc, c', hc', rfl⟩ := h
    exact ⟨c, c', hc, hc', getElem?_set_of_some v i c c' hc⟩
  | i :: j :: rest, v, v', h => by
    simp only [toggleIn, Option.bind_eq_some, Option.map_eq_some'] at h
    obtain ⟨c, hc, cs, hcs, rfl⟩ := h
    obtain ⟨d, d', hd, hd', hd''⟩ := toggleIn_instance (j :: rest) c.children cs hcs
    refine ⟨d, d', ?_, hd', ?_⟩
    · simp only [instanceAt, hc, Option.some_bind, hd]
    · simp only [instanceAt, getElem?_set_of_some v i c _ hc, Option.some_bind,
        setChildren_children, hd'']

/-- The handler of an expanded instance collapses it and removes the instances below it. -/
theorem toggleNode_collapse (c c' : ViewNode) (h : toggleNode c = some c')
    (he : c.isExpanded = true) : c'.isExpanded = false ∧ c'.children = [] := by
  obtain ⟨k, v, e, cs⟩ := c
  simp only [ViewNode.isExpanded] at he
  subst he
  simp only [toggleNode] at h
  split at h
  · simp only [if_true, Option.some.injEq] at h
    subst h
    exact ⟨rfl, rfl⟩
  · exact Option.noConfusion h

/-- The handler of a collapsed instance expands it and mounts its sources anew. -/
theorem toggleNode_expand (c c' : ViewNode) (h : toggleNode c = some c')
    (he : c.isExpanded = false) :
    c'.isExpanded = true ∧ mountForEach c.value.sources = some c'.children := by
  obtain ⟨k, v, e, cs⟩ := c
  simp only [ViewNode.isExpanded] at he
  subst he
  simp only [toggleNode] at h
  split at h
  · simp only [Bool.false_eq_true, if_false, Option.map_eq_some'] at h
    obtain ⟨ch, hch, rfl⟩ := h
    exact ⟨rfl, hch⟩
  · exact Option.noConfusion h

theorem exists_append_of_prefix_ne (p q : List Nat) (hpq : p <+: q) (hne : q ≠ p) :
    ∃ r, r ≠ [] ∧ q = p ++ r := by
  obtain ⟨r, rfl⟩ := hpq
  refine ⟨r, ?_, rfl⟩
  intro hr
  subst hr
  exact hne (List.append_nil p)

theorem toggleIn_ne_nil (p : List Nat) (v v' : List ViewNode) (h : toggleIn p v = some v') :
    p ≠ [] := by
  intro hp
  subst hp
  simp [toggleIn] at h

/-- C13 as stated fails for the positions below the toggled one. In the chain
`DB.S.X` over `DB.S.D` over `DB.S.E`, after a click on `DB.S.D` that node is collapsed; a
click on `DB.S.X` then removes the instance of `DB.S.D`, and a second click on `DB.S.X`
mounts it anew, expanded: clicks at position `[0]` alone have changed the state at position
`[0, 0]`. So it is not true that a click leaves the state of every other position as it
was. -/
theorem C13_state_below_toggled_node_lost :
    (mountView chainValue).bind (togglesIn [[0, 0]]) = some chainViewInnerCollapsed
      ∧ expandedAt [0, 0] chainViewInnerCollapsed = some false
      ∧ toggleIn [0] chainViewInnerCollapsed = some chainViewOuterCollapsed
      ∧ expandedAt [0, 0] chainViewOuterCollapsed = none
      ∧ ((toggleIn [0] chainViewOuterCollapsed).map (expandedAt [0, 0])) = some (some true)
      ∧ ¬ ∀ (v v' : List ViewNode) (p q : List Nat),
          toggleIn p v = some v' → q ≠ p → expandedAt q v' = expandedAt q v := by
  refine ⟨rfl, rfl, rfl, rfl, rfl, fun h => ?_⟩
  exact absurd (h chainViewInnerCollapsed chainViewOuterCollapsed [0] [0, 0] rfl (by decide))
    (by decide)

/-- C13, amended: every instance starts expanded, and a click on the button of one node
changes the expanded state of no position that is not that node or below it; at a position
that is neither on the path to the clicked node nor below it the whole instance, with
everything mounted under it, stays as it was. The click inverts the state of the node
itself. When the node was expanded, every position below it is unmounted by the click; when
it was collapsed, its sources are mounted anew and every instance below it is expanded
again. In particular when the same qualified name occurs at two positions none of which is
below the other, such as two siblings, collapsing one occurrence leaves the other expanded
and its descendants visible. -/
theorem C13_toggle_frame (v v' : List ViewNode) (p : List Nat)
    (h : toggleIn p v = some v') :
    (∀ q : List Nat, ¬ p <+: q →
        expandedAt q v' = expandedAt q v
          ∧ (¬ q <+: p → instanceAt q v' = instanceAt q v))
      ∧ expandedAt p v' = (expandedAt p v).map (fun e => !e)
      ∧ (expandedAt p v = some true →
          ∀ q : List Nat, p <+: q → q ≠ p → instanceAt q v' = none)
      ∧ (expandedAt p v = some false →
          (∃ c c', instanceAt p v = some c ∧ instanceAt p v' = some c'
              ∧ mountForEach c.value.sources = some c'.children)
            ∧ ∀ q : List Nat, p <+: q → q ≠ p →
                ∀ inst, instanceAt q v' = some inst → inst.isExpanded = true)
      ∧ (∀ (value : LineageNode) (view : List ViewNode), mountView value = some view →
          ∀ (q : List Nat) (inst : ViewNode),
            instanceAt q view = some inst → inst.isExpanded = true) := by
  have hp := toggleIn_ne_nil p v v' h
  obtain ⟨c, c', hc, hc', hc''⟩ := toggleIn_instance p v v' h
  have hbelow : ∀ q : List Nat, p <+: q → q ≠ p →
      ∃ r, r ≠ [] ∧ instanceAt q v' = instanceAt r c'.children := by
    intro q hpq hne
    obtain ⟨r, hr, rfl⟩ := exists_append_of_prefix_ne p q hpq hne
    exact ⟨r, hr, by rw [instanceAt_append p r v' hp hr, hc'', Option.some_bind]⟩
  refine ⟨fun q hq => (toggleIn_frame p q v v' h).2 hq, (toggleIn_frame p [] v v' h).1,
    ?_, ?_, fun value view hm => mountView_allExpanded value view hm⟩
  · intro he q hpq hne
    have hce : c.isExpanded = true := by
      simpa [expandedAt, hc] using he
    obtain ⟨r, -, hr⟩ := hbelow q hpq hne
    rw [hr, (toggleNode_collapse c c' hc' hce).2, instanceAt_nil]
  · intro he
    have hce : c.isExpanded = false := by
      simpa [expandedAt, hc] using he
    have hx := toggleNode_expand c c' hc' hce
    refine ⟨⟨c, c', hc, hc'', hx.2⟩, ?_⟩
    intro q hpq hne inst hinst
    obtain ⟨r, -, hr⟩ := hbelow q hpq hne
    rw [hr] at hinst
    exact mountForEach_allExpanded _ _ hx.2 r inst hinst

/-- C13 at a root with two sources of the same name `DB.S.A`: collapsing the first leaves
the second expanded with its source `DB.S.T` mounted; and at the chain: collapsing
`DB.S.X` unmounts `DB.S.D`, expanding it again mounts `DB.S.D` expanded. -/
theorem C13_toggle_frame_witness :
    mountView twinValue = some twinView
      ∧ toggleIn [0] twinView = some twinViewFirstCollapsed
      ∧ expandedAt [0] twinViewFirstCollapsed = some false
      ∧ expandedAt [1] twinView = some true
      ∧ (instanceAt [1, 0] twinView).map ViewNode.nodeKey = some "DB.S.T"
      ∧ expandedAt [1] twinViewFirstCollapsed = expandedAt [1] twinView
      ∧ instanceAt [1, 0] twinViewFirstCollapsed = instanceAt [1, 0] twinView
      ∧ toggleIn [0] chainViewInnerCollapsed = some chainViewOuterCollapsed
      ∧ instanceAt [0, 0] chainViewOuterCollapsed = none
      ∧ toggleIn [0] chainViewOuterCollapsed = some chainView
      ∧ (∀ inst, instanceAt [0, 0] chainView = some inst → inst.isExpanded = true) :=
  ⟨rfl, rfl, rfl, rfl, rfl,
    ((C13_toggle_frame twinView twinViewFirstCollapsed [0] rfl).1 [1] (by decide)).1,
    ((C13_toggle_frame twinView twinViewFirstCollapsed [0] rfl).1 [1, 0] (by decide)).2
      (by decide),
    rfl,
    (C13_toggle_frame chainViewInnerCollapsed chainViewOuterCollapsed [0] rfl).2.2.1 rfl
      [0, 0] (by decide) (by decide),
    rfl,
    ((C13_toggle_frame chainViewOuterCollapsed chainView [0] rfl).2.2.2.1 rfl).2
      [0, 0] (by decide) (by decide)⟩

end Lineage
